import Mathlib

/-!
Shallow embedding of the `kvs` log-structured key-value store (connec/kvs).

Keys, values and file contents are modelled as byte lists (`List Nat`).
The MessagePack framing produced by `rmp_serde` for the crate's `Command`
enum is modelled byte-for-byte as documented in `src/engine/kvs/log.rs`:
an enum variant is encoded as a fixarray-of-2 marker, a positive-fixint
variant tag, and a fixarray marker for the variant's fields, so every
record starts with a fixed 3-byte prefix; a `Set` serializes its value
before its key.  Strings use the msgpack `fixstr`/`str8`/`str16`/`str32`
formats (the `str32` length field is 4 bytes, so string lengths are
faithful only below `2^32`, matching the real format's limit; theorems
carry that bound as a hypothesis where it matters).
-/

namespace KvsProof

abbrev Bytes := List Nat

/-- `VALUE_OFFSET` from `log.rs`: the fixed 3-byte framing prefix of a record. -/
def VALUE_OFFSET : Nat := 3

/-- `COMPACTION_THRESHOLD` from `engine/kvs.rs`. -/
def COMPACTION_THRESHOLD : Nat := 1024 * 1024

/-- The msgpack string header for a payload of `n` bytes
(fixstr / str8 / str16 / str32). -/
def strHeader (n : Nat) : Bytes :=
  if n < 32 then [0xa0 + n]
  else if n < 256 then [0xd9, n]
  else if n < 65536 then [0xda, n / 256, n % 256]
  else [0xdb, n / 16777216 % 256, n / 65536 % 256, n / 256 % 256, n % 256]

/-- Serialize a string (byte payload) in msgpack `str` format. -/
def encodeStr (s : Bytes) : Bytes := strHeader s.length ++ s

/-- Parse a msgpack string header byte `x` with remaining input `r`. -/
def strLenAux (x : Nat) (r : Bytes) : Option (Nat × Bytes) :=
  if 0xa0 ≤ x ∧ x ≤ 0xbf then some (x - 0xa0, r)
  else if x = 0xd9 then
    match r with
    | n :: r1 => some (n, r1)
    | [] => none
  else if x = 0xda then
    match r with
    | n1 :: n2 :: r1 => some (n1 * 256 + n2, r1)
    | _ => none
  else if x = 0xdb then
    match r with
    | n1 :: n2 :: n3 :: n4 :: r1 =>
      some (((n1 * 256 + n2) * 256 + n3) * 256 + n4, r1)
    | _ => none
  else none

/-- Parse a msgpack string header: the payload length and the remaining bytes. -/
def strLen : Bytes → Option (Nat × Bytes)
  | [] => none
  | x :: r => strLenAux x r

theorem strLen_cons (x : Nat) (r : Bytes) : strLen (x :: r) = strLenAux x r := rfl

/-- Split `n` payload bytes off the front of `r`, failing on short input. -/
def takeRest (n : Nat) (r : Bytes) : Option (Bytes × Bytes) :=
  if n ≤ r.length then some (r.take n, r.drop n) else none

/-- Deserialize one msgpack `str` value, returning it and the remaining bytes. -/
def decodeStr (b : Bytes) : Option (Bytes × Bytes) :=
  match strLen b with
  | some (n, r) => takeRest n r
  | none => none

/-- The `Command` enum from `log.rs`.  Note `Set` stores its value first. -/
inductive Command where
  | Set (value key : Bytes)
  | Remove (key : Bytes)
deriving Repr, DecidableEq

/-- `rmp_serde` encoding of a `Command`: fixarray(2) marker, fixint variant
tag, fixarray marker for the variant's fields, then the fields in order. -/
def encodeCommand : Command → Bytes
  | .Set value key => 0x92 :: 0x00 :: 0x92 :: (encodeStr value ++ encodeStr key)
  | .Remove key => 0x92 :: 0x01 :: 0x91 :: encodeStr key

/-- Decode the fields of a `Set` record (value first, then key). -/
def decodeSetBody (rest : Bytes) : Option (Command × Bytes) :=
  match decodeStr rest with
  | some (v, r1) =>
    match decodeStr r1 with
    | some (k, r2) => some (Command.Set v k, r2)
    | none => none
  | none => none

/-- Decode the field of a `Remove` record. -/
def decodeRemoveBody (rest : Bytes) : Option (Command × Bytes) :=
  match decodeStr rest with
  | some (k, r1) => some (Command.Remove k, r1)
  | none => none

/-- Decode one `Command` record, returning it and the remaining bytes: the
3-byte framing prefix selects the variant, then the fields follow. -/
def decodeCommand (b : Bytes) : Option (Command × Bytes) :=
  match b with
  | x1 :: x2 :: x3 :: rest =>
    if x1 = 0x92 ∧ x2 = 0x00 ∧ x3 = 0x92 then decodeSetBody rest
    else if x1 = 0x92 ∧ x2 = 0x01 ∧ x3 = 0x91 then decodeRemoveBody rest
    else none
  | _ => none

/-- Well-formed string payload: its length fits the msgpack `str32` limit. -/
def WFStr (s : Bytes) : Prop := s.length < 4294967296

instance (s : Bytes) : Decidable (WFStr s) := by
  unfold WFStr; infer_instance

/-- Well-formed command: all string fields fit the msgpack limit. -/
def Command.WF : Command → Prop
  | .Set value key => WFStr value ∧ WFStr key
  | .Remove key => WFStr key

instance (c : Command) : Decidable c.WF := by
  cases c <;> (unfold Command.WF; infer_instance)

theorem takeRest_exact (l r : Bytes) : takeRest l.length (l ++ r) = some (l, r) := by
  unfold takeRest
  rw [if_pos (by simp)]
  rw [List.take_left, List.drop_left]

theorem takeRest_ext (n : Nat) (r e v rest : Bytes) (h : takeRest n r = some (v, rest)) :
    takeRest n (r ++ e) = some (v, rest ++ e) := by
  unfold takeRest at h ⊢
  split_ifs at h with hle
  simp only [Option.some.injEq, Prod.mk.injEq] at h
  obtain ⟨hv, hr⟩ := h
  have hle2 : n ≤ (r ++ e).length := by rw [List.length_append]; omega
  rw [if_pos hle2]
  rw [List.take_append_of_le_length hle, List.drop_append_of_le_length hle, hv, hr]

theorem takeRest_length_le (n : Nat) (r v rest : Bytes) (h : takeRest n r = some (v, rest)) :
    rest.length ≤ r.length := by
  unfold takeRest at h
  split_ifs at h with hle
  simp only [Option.some.injEq, Prod.mk.injEq] at h
  obtain ⟨_, hr⟩ := h
  subst hr
  simp

theorem strLen_fixstr (n : Nat) (t : Bytes) (h : n < 32) :
    strLen ((160 + n) :: t) = some (n, t) := by
  rw [strLen_cons]
  unfold strLenAux
  rw [if_pos (show 160 ≤ 160 + n ∧ 160 + n ≤ 191 from ⟨by omega, by omega⟩)]
  simp only [Option.some.injEq, Prod.mk.injEq]
  exact ⟨by omega, by trivial⟩

theorem strLen_str8 (n : Nat) (t : Bytes) : strLen (217 :: n :: t) = some (n, t) := rfl

theorem strLen_str16 (n1 n2 : Nat) (t : Bytes) :
    strLen (218 :: n1 :: n2 :: t) = some (n1 * 256 + n2, t) := rfl

theorem strLen_str32 (n1 n2 n3 n4 : Nat) (t : Bytes) :
    strLen (219 :: n1 :: n2 :: n3 :: n4 :: t) =
      some (((n1 * 256 + n2) * 256 + n3) * 256 + n4, t) := rfl

theorem strLen_strHeader (n : Nat) (t : Bytes) (h : n < 4294967296) :
    strLen (strHeader n ++ t) = some (n, t) := by
  unfold strHeader
  split_ifs with h1 h2 h3
  · exact strLen_fixstr n t h1
  · exact strLen_str8 n t
  · rw [List.cons_append, List.cons_append, List.cons_append, List.nil_append,
      strLen_str16]
    congr 2
    omega
  · rw [List.cons_append, List.cons_append, List.cons_append, List.cons_append,
      List.cons_append, List.nil_append, strLen_str32]
    congr 2
    omega

theorem strLen_ext (b e : Bytes) (n : Nat) (r : Bytes) (h : strLen b = some (n, r)) :
    strLen (b ++ e) = some (n, r ++ e) := by
  match b with
  | [] => simp [strLen] at h
  | x :: b1 =>
    rw [List.cons_append]
    rw [strLen_cons] at h ⊢
    unfold strLenAux at h ⊢
    split_ifs at h ⊢ with h1 h2 h3 h4
    · simp only [Option.some.injEq, Prod.mk.injEq] at h ⊢
      exact ⟨h.1, by rw [h.2]⟩
    · cases b1 with
      | nil => simp at h
      | cons m r1 =>
        simp only [Option.some.injEq, Prod.mk.injEq] at h
        simp only [List.cons_append, Option.some.injEq, Prod.mk.injEq]
        exact ⟨h.1, by rw [h.2]⟩
    · match b1 with
      | [] => simp at h
      | [m] => simp at h
      | m1 :: m2 :: r1 =>
        simp only [Option.some.injEq, Prod.mk.injEq] at h
        simp only [List.cons_append, Option.some.injEq, Prod.mk.injEq]
        exact ⟨h.1, by rw [h.2]⟩
    · match b1 with
      | [] => simp at h
      | [m1] => simp at h
      | [m1, m2] => simp at h
      | [m1, m2, m3] => simp at h
      | m1 :: m2 :: m3 :: m4 :: r1 =>
        simp only [Option.some.injEq, Prod.mk.injEq] at h
        simp only [List.cons_append, Option.some.injEq, Prod.mk.injEq]
        exact ⟨h.1, by rw [h.2]⟩

theorem strLen_length_lt (b : Bytes) (n : Nat) (r : Bytes) (h : strLen b = some (n, r)) :
    r.length < b.length := by
  match b with
  | [] => simp [strLen] at h
  | x :: b1 =>
    rw [strLen_cons] at h
    unfold strLenAux at h
    split_ifs at h with h1 h2 h3 h4
    · simp only [Option.some.injEq, Prod.mk.injEq] at h
      rw [← h.2]; simp
    · cases b1 with
      | nil => simp at h
      | cons m r1 =>
        simp only [Option.some.injEq, Prod.mk.injEq] at h
        rw [← h.2]; simp only [List.length_cons]; omega
    · match b1 with
      | [] => simp at h
      | [m] => simp at h
      | m1 :: m2 :: r1 =>
        simp only [Option.some.injEq, Prod.mk.injEq] at h
        rw [← h.2]; simp only [List.length_cons]; omega
    · match b1 with
      | [] => simp at h
      | [m1] => simp at h
      | [m1, m2] => simp at h
      | [m1, m2, m3] => simp at h
      | m1 :: m2 :: m3 :: m4 :: r1 =>
        simp only [Option.some.injEq, Prod.mk.injEq] at h
        rw [← h.2]; simp only [List.length_cons]; omega

theorem decodeStr_encodeStr (s rest : Bytes) (h : WFStr s) :
    decodeStr (encodeStr s ++ rest) = some (s, rest) := by
  unfold decodeStr encodeStr
  rw [List.append_assoc, strLen_strHeader s.length (s ++ rest) h]
  exact takeRest_exact s rest

theorem decodeStr_ext (b e v rest : Bytes) (h : decodeStr b = some (v, rest)) :
    decodeStr (b ++ e) = some (v, rest ++ e) := by
  unfold decodeStr at h ⊢
  match hs : strLen b with
  | none => rw [hs] at h; exact absurd h (by simp)
  | some (n, r) =>
    rw [hs] at h
    rw [strLen_ext b e n r hs]
    exact takeRest_ext n r e v rest h

theorem decodeStr_length_lt (b v rest : Bytes) (h : decodeStr b = some (v, rest)) :
    rest.length < b.length := by
  unfold decodeStr at h
  match hs : strLen b with
  | none => rw [hs] at h; exact absurd h (by simp)
  | some (n, r) =>
    rw [hs] at h
    have h1 := takeRest_length_le n r v rest h
    have h2 := strLen_length_lt b n r hs
    omega

theorem decodeCommand_encodeCommand (c : Command) (rest : Bytes) (h : c.WF) :
    decodeCommand (encodeCommand c ++ rest) = some (c, rest) := by
  cases c with
  | Set value key =>
    obtain ⟨hv, hk⟩ := h
    simp only [encodeCommand, List.cons_append, List.append_assoc]
    rw [decodeCommand]
    rw [if_pos ⟨rfl, rfl, rfl⟩]
    unfold decodeSetBody
    simp only [decodeStr_encodeStr value (encodeStr key ++ rest) hv,
      decodeStr_encodeStr key rest hk]
  | Remove key =>
    simp only [encodeCommand, List.cons_append]
    rw [decodeCommand]
    rw [if_neg (by simp), if_pos ⟨rfl, rfl, rfl⟩]
    unfold decodeRemoveBody
    simp only [decodeStr_encodeStr key rest h]

theorem decodeSetBody_ext (b e : Bytes) (c : Command) (r : Bytes)
    (h : decodeSetBody b = some (c, r)) :
    decodeSetBody (b ++ e) = some (c, r ++ e) := by
  unfold decodeSetBody at h ⊢
  match h1 : decodeStr b with
  | none => simp only [h1] at h; exact absurd h (by simp)
  | some (v, r1) =>
    simp only [h1] at h
    simp only [decodeStr_ext b e v r1 h1]
    match h2 : decodeStr r1 with
    | none => simp only [h2] at h; exact absurd h (by simp)
    | some (k, r2) =>
      simp only [h2] at h
      simp only [decodeStr_ext r1 e k r2 h2]
      simp only [Option.some.injEq, Prod.mk.injEq] at h ⊢
      exact ⟨h.1, by rw [h.2]⟩

theorem decodeRemoveBody_ext (b e : Bytes) (c : Command) (r : Bytes)
    (h : decodeRemoveBody b = some (c, r)) :
    decodeRemoveBody (b ++ e) = some (c, r ++ e) := by
  unfold decodeRemoveBody at h ⊢
  match h1 : decodeStr b with
  | none => simp only [h1] at h; exact absurd h (by simp)
  | some (k, r1) =>
    simp only [h1] at h
    simp only [decodeStr_ext b e k r1 h1]
    simp only [Option.some.injEq, Prod.mk.injEq] at h ⊢
    exact ⟨h.1, by rw [h.2]⟩

theorem decodeSetBody_length_le (b : Bytes) (c : Command) (r : Bytes)
    (h : decodeSetBody b = some (c, r)) : r.length ≤ b.length := by
  unfold decodeSetBody at h
  match h1 : decodeStr b with
  | none => simp only [h1] at h; exact absurd h (by simp)
  | some (v, r1) =>
    simp only [h1] at h
    match h2 : decodeStr r1 with
    | none => simp only [h2] at h; exact absurd h (by simp)
    | some (k, r2) =>
      simp only [h2] at h
      simp only [Option.some.injEq, Prod.mk.injEq] at h
      have e1 := decodeStr_length_lt b v r1 h1
      have e2 := decodeStr_length_lt r1 k r2 h2
      rw [← h.2]
      omega

theorem decodeRemoveBody_length_le (b : Bytes) (c : Command) (r : Bytes)
    (h : decodeRemoveBody b = some (c, r)) : r.length ≤ b.length := by
  unfold decodeRemoveBody at h
  match h1 : decodeStr b with
  | none => simp only [h1] at h; exact absurd h (by simp)
  | some (k, r1) =>
    simp only [h1] at h
    simp only [Option.some.injEq, Prod.mk.injEq] at h
    have e1 := decodeStr_length_lt b k r1 h1
    rw [← h.2]
    omega

theorem decodeCommand_ext (b e : Bytes) (c : Command) (r : Bytes)
    (h : decodeCommand b = some (c, r)) :
    decodeCommand (b ++ e) = some (c, r ++ e) := by
  match b with
  | [] => simp [decodeCommand] at h
  | [x1] => simp [decodeCommand] at h
  | [x1, x2] => simp [decodeCommand] at h
  | x1 :: x2 :: x3 :: rest =>
    rw [decodeCommand] at h
    simp only [List.cons_append]
    rw [decodeCommand]
    split_ifs at h ⊢ with h1 h2
    · exact decodeSetBody_ext rest e c r h
    · exact decodeRemoveBody_ext rest e c r h

theorem decodeCommand_length_lt (b : Bytes) (c : Command) (r : Bytes)
    (h : decodeCommand b = some (c, r)) : r.length < b.length := by
  match b with
  | [] => simp [decodeCommand] at h
  | [x1] => simp [decodeCommand] at h
  | [x1, x2] => simp [decodeCommand] at h
  | x1 :: x2 :: x3 :: rest =>
    rw [decodeCommand] at h
    split_ifs at h with h1 h2
    · have := decodeSetBody_length_le rest c r h
      simp only [List.length_cons]
      omega
    · have := decodeRemoveBody_length_le rest c r h
      simp only [List.length_cons]
      omega

/-- One record produced by the reader iterator in `log.rs`: the command, the
offset of its value (record start + `VALUE_OFFSET`), and the record length. -/
abbrev Record := Command × Nat × Nat

/-- `Reader::load` / `ReaderIterator` from `log.rs`: decode records one after
another from position `off`; a clean end of input terminates the iteration,
and a decode failure mid-stream is an error (`none`). -/
def load (b : Bytes) (off : Nat) : Option (List Record) :=
  match b with
  | [] => some []
  | x :: bs =>
    match hd : decodeCommand (x :: bs) with
    | some (c, rest) =>
      (load rest (off + ((x :: bs).length - rest.length))).map
        (fun rs => (c, off + VALUE_OFFSET, (x :: bs).length - rest.length) :: rs)
    | none => none
termination_by b.length
decreasing_by exact decodeCommand_length_lt _ _ _ hd

theorem load_nil (off : Nat) : load [] off = some [] := by
  rw [load]

theorem load_cons_some (x : Nat) (bs : Bytes) (off : Nat) (c : Command) (rest : Bytes)
    (h : decodeCommand (x :: bs) = some (c, rest)) :
    load (x :: bs) off = (load rest (off + ((x :: bs).length - rest.length))).map
      (fun rs => (c, off + VALUE_OFFSET, (x :: bs).length - rest.length) :: rs) := by
  rw [load]
  split
  · rename_i c2 rest2 hd2
    rw [h] at hd2
    simp only [Option.some.injEq, Prod.mk.injEq] at hd2
    rw [← hd2.1, ← hd2.2]
  · rename_i hd2
    rw [h] at hd2
    exact absurd hd2 (by simp)

theorem load_cons_none (x : Nat) (bs : Bytes) (off : Nat)
    (h : decodeCommand (x :: bs) = none) :
    load (x :: bs) off = none := by
  rw [load]
  split
  · rename_i c2 rest2 hd2
    rw [h] at hd2
    exact absurd hd2 (by simp)
  · rfl

theorem load_of_decode (b : Bytes) (off : Nat) (c : Command) (rest : Bytes)
    (hb : b ≠ []) (hd : decodeCommand b = some (c, rest)) :
    load b off = (load rest (off + (b.length - rest.length))).map
      (fun rs => (c, off + VALUE_OFFSET, b.length - rest.length) :: rs) := by
  match b with
  | [] => exact absurd rfl hb
  | x :: bs => exact load_cons_some x bs off c rest hd

theorem encodeCommand_ne_nil (c : Command) : encodeCommand c ≠ [] := by
  cases c <;> simp [encodeCommand]

theorem load_encode (c : Command) (off : Nat) (h : c.WF) :
    load (encodeCommand c) off =
      some [(c, off + VALUE_OFFSET, (encodeCommand c).length)] := by
  have hd : decodeCommand (encodeCommand c) = some (c, []) := by
    have := decodeCommand_encodeCommand c [] h
    rwa [List.append_nil] at this
  rw [load_of_decode (encodeCommand c) off c [] (encodeCommand_ne_nil c) hd]
  simp [load_nil]

theorem load_append_aux (n : Nat) : ∀ (b1 : Bytes), b1.length ≤ n →
    ∀ (b2 : Bytes) (off : Nat) (rs1 rs2 : List Record),
    load b1 off = some rs1 → load b2 (off + b1.length) = some rs2 →
    load (b1 ++ b2) off = some (rs1 ++ rs2) := by
  induction n with
  | zero =>
    intro b1 hlen b2 off rs1 rs2 h1 h2
    have hb1 : b1 = [] := List.length_eq_zero.mp (by omega)
    subst hb1
    rw [load_nil] at h1
    simp only [Option.some.injEq] at h1
    subst h1
    simpa using h2
  | succ n ih =>
    intro b1 hlen b2 off rs1 rs2 h1 h2
    match b1 with
    | [] =>
      rw [load_nil] at h1
      simp only [Option.some.injEq] at h1
      subst h1
      simpa using h2
    | x :: bs =>
      match hd : decodeCommand (x :: bs) with
      | none => rw [load_cons_none x bs off hd] at h1; exact absurd h1 (by simp)
      | some (c, rest) =>
        rw [load_cons_some x bs off c rest hd] at h1
        rw [Option.map_eq_some'] at h1
        obtain ⟨rs0, hrs0, hrs1⟩ := h1
        have hrlt : rest.length < (x :: bs).length := decodeCommand_length_lt _ _ _ hd
        have hdapp : decodeCommand (x :: (bs ++ b2)) = some (c, rest ++ b2) := by
          have := decodeCommand_ext (x :: bs) b2 c rest hd
          rwa [List.cons_append] at this
        have hδ : (x :: (bs ++ b2)).length - (rest ++ b2).length =
            (x :: bs).length - rest.length := by
          simp only [List.length_cons, List.length_append]
          omega
        have hih : load (rest ++ b2) (off + ((x :: bs).length - rest.length)) =
            some (rs0 ++ rs2) := by
          apply ih rest (by
            have hx := hrlt
            simp only [List.length_cons] at hlen hx
            omega) b2 _ rs0 rs2 hrs0
          have hoff : off + ((x :: bs).length - rest.length) + rest.length =
              off + (x :: bs).length := by omega
          rw [hoff]
          exact h2
        rw [List.cons_append]
        rw [load_cons_some x (bs ++ b2) off c (rest ++ b2) hdapp]
        rw [hδ, hih]
        simp only [Option.map_some', Option.some.injEq]
        rw [← hrs1]
        rfl

theorem load_append (b1 b2 : Bytes) (off : Nat) (rs1 rs2 : List Record)
    (h1 : load b1 off = some rs1) (h2 : load b2 (off + b1.length) = some rs2) :
    load (b1 ++ b2) off = some (rs1 ++ rs2) :=
  load_append_aux b1.length b1 (le_refl _) b2 off rs1 rs2 h1 h2

/-- Appending one well-formed encoded command to a loadable file extends its
record list by exactly one record whose value offset is the old file length
plus `VALUE_OFFSET` and whose length is the encoding's length. -/
theorem load_append_encode (b : Bytes) (c : Command) (off : Nat) (rs : List Record)
    (h : load b off = some rs) (hwf : c.WF) :
    load (b ++ encodeCommand c) off =
      some (rs ++ [(c, off + b.length + VALUE_OFFSET, (encodeCommand c).length)]) :=
  load_append b (encodeCommand c) off rs _ h (load_encode c (off + b.length) hwf)

/-- An entry in the command index (`IndexEntry` in `engine/kvs.rs`).
`offset` is the value offset within the segment (record start + 3). -/
structure IndexEntry where
  log_index : Nat
  offset : Nat
  length : Nat
deriving Repr, DecidableEq

/-- The in-memory index `HashMap<String, IndexEntry>`, as an association list. -/
def lookupIndex : List (Bytes × IndexEntry) → Bytes → Option IndexEntry
  | [], _ => none
  | (k, e) :: rest, key => if k = key then some e else lookupIndex rest key

/-- `HashMap::insert`: replace the entry for an existing key, else add one. -/
def insertIndex : List (Bytes × IndexEntry) → Bytes → IndexEntry →
    List (Bytes × IndexEntry)
  | [], key, e => [(key, e)]
  | (k, e1) :: rest, key, e =>
    if k = key then (k, e) :: rest else (k, e1) :: insertIndex rest key e

/-- `HashMap::remove`: drop the entry for a key. -/
def eraseIndex : List (Bytes × IndexEntry) → Bytes → List (Bytes × IndexEntry)
  | [], _ => []
  | (k, e1) :: rest, key => if k = key then rest else (k, e1) :: eraseIndex rest key

/-- The segment directory: association from segment index to file content. -/
def getFile : List (Nat × Bytes) → Nat → Bytes
  | [], _ => []
  | (j, b) :: rest, i => if j = i then b else getFile rest i

/-- Overwrite (or add) the content of segment `i`. -/
def setFile : List (Nat × Bytes) → Nat → Bytes → List (Nat × Bytes)
  | [], i, b => [(i, b)]
  | (j, c) :: rest, i, b =>
    if j = i then (j, b) :: rest else (j, c) :: setFile rest i b

/-- `OpenOptions::new().create(true).write(true)`: create an empty segment
file if absent, keep the existing content otherwise (no truncation). -/
def createFile (files : List (Nat × Bytes)) (i : Nat) : List (Nat × Bytes) :=
  if i ∈ files.map Prod.fst then files else files ++ [(i, [])]

/-- `HashMap::insert` on the reader cache (keys only; a reader reads the
current content of its segment file). -/
def insertReader (readers : List Nat) (i : Nat) : List Nat :=
  if i ∈ readers then readers else i :: readers

theorem lookupIndex_insert (A : List (Bytes × IndexEntry)) (k : Bytes) (e : IndexEntry)
    (q : Bytes) : lookupIndex (insertIndex A k e) q =
      if k = q then some e else lookupIndex A q := by
  induction A with
  | nil =>
    by_cases h : k = q <;> simp [insertIndex, lookupIndex, h]
  | cons p rest ih =>
    obtain ⟨k0, e0⟩ := p
    by_cases h0 : k0 = k
    · subst h0
      by_cases h : k0 = q <;> simp [insertIndex, lookupIndex, h]
    · by_cases h : k0 = q
      · subst h
        have hkq : ¬ k = k0 := fun hc => h0 hc.symm
        simp [insertIndex, lookupIndex, h0, hkq]
      · simp [insertIndex, lookupIndex, h0, h, ih]

theorem lookupIndex_erase_ne (A : List (Bytes × IndexEntry)) (k q : Bytes)
    (h : k ≠ q) : lookupIndex (eraseIndex A k) q = lookupIndex A q := by
  induction A with
  | nil => simp [eraseIndex]
  | cons p rest ih =>
    obtain ⟨k0, e0⟩ := p
    by_cases h0 : k0 = k
    · subst h0
      have : ¬ k0 = q := fun hc => h (hc ▸ rfl)
      simp [eraseIndex, lookupIndex, this]
    · by_cases h1 : k0 = q
      · subst h1
        simp [eraseIndex, lookupIndex, h0]
      · simp [eraseIndex, lookupIndex, h0, h1, ih]

theorem lookupIndex_not_mem (A : List (Bytes × IndexEntry)) (k : Bytes)
    (h : k ∉ A.map Prod.fst) : lookupIndex A k = none := by
  induction A with
  | nil => rfl
  | cons p rest ih =>
    obtain ⟨k0, e0⟩ := p
    simp only [List.map_cons, List.mem_cons] at h
    push_neg at h
    have : k0 ≠ k := fun hc => h.1 hc.symm
    simp [lookupIndex, this, ih h.2]

theorem lookupIndex_mem_keys (A : List (Bytes × IndexEntry)) (k : Bytes)
    (e : IndexEntry) (h : lookupIndex A k = some e) : k ∈ A.map Prod.fst := by
  induction A with
  | nil => simp [lookupIndex] at h
  | cons p rest ih =>
    obtain ⟨k0, e0⟩ := p
    by_cases h0 : k0 = k
    · subst h0; simp
    · simp only [lookupIndex, if_neg h0] at h
      simp [ih h]

theorem lookupIndex_erase_self (A : List (Bytes × IndexEntry)) (k : Bytes)
    (h : (A.map Prod.fst).Nodup) : lookupIndex (eraseIndex A k) k = none := by
  induction A with
  | nil => rfl
  | cons p rest ih =>
    obtain ⟨k0, e0⟩ := p
    simp only [List.map_cons, List.nodup_cons] at h
    by_cases h0 : k0 = k
    · subst h0
      simp only [eraseIndex, if_pos rfl]
      exact lookupIndex_not_mem rest k0 h.1
    · simp [eraseIndex, lookupIndex, h0, ih h.2]

theorem eraseIndex_sublist (A : List (Bytes × IndexEntry)) (k : Bytes) :
    (eraseIndex A k).Sublist A := by
  induction A with
  | nil => simp [eraseIndex]
  | cons p rest ih =>
    obtain ⟨k0, e0⟩ := p
    by_cases h0 : k0 = k
    · simp only [eraseIndex, if_pos h0]
      exact List.sublist_cons_self _ _
    · simp only [eraseIndex, if_neg h0]
      exact ih.cons₂ _

theorem keys_insertIndex_mem (A : List (Bytes × IndexEntry)) (k : Bytes)
    (e : IndexEntry) (h : k ∈ A.map Prod.fst) :
    (insertIndex A k e).map Prod.fst = A.map Prod.fst := by
  induction A with
  | nil => simp at h
  | cons p rest ih =>
    obtain ⟨k0, e0⟩ := p
    by_cases h0 : k0 = k
    · simp [insertIndex, h0]
    · simp only [List.map_cons, List.mem_cons] at h
      rcases h with h | h
    
      · exact absurd h.symm h0
      · simp [insertIndex, h0, ih h]

theorem keys_insertIndex_not_mem (A : List (Bytes × IndexEntry)) (k : Bytes)
    (e : IndexEntry) (h : k ∉ A.map Prod.fst) :
    (insertIndex A k e).map Prod.fst = A.map Prod.fst ++ [k] := by
  induction A with
  | nil => simp [insertIndex]
  | cons p rest ih =>
    obtain ⟨k0, e0⟩ := p
    simp only [List.map_cons, List.mem_cons] at h
    push_neg at h
    have : k0 ≠ k := fun hc => h.1 hc.symm
    simp [insertIndex, this, ih h.2]

theorem nodup_keys_insertIndex (A : List (Bytes × IndexEntry)) (k : Bytes)
    (e : IndexEntry) (h : (A.map Prod.fst).Nodup) :
    ((insertIndex A k e).map Prod.fst).Nodup := by
  by_cases hm : k ∈ A.map Prod.fst
  · rw [keys_insertIndex_mem A k e hm]; exact h
  · rw [keys_insertIndex_not_mem A k e hm]
    rw [List.nodup_append]
    exact ⟨h, List.nodup_singleton k, by simpa using fun hc => hm hc⟩

theorem nodup_keys_eraseIndex (A : List (Bytes × IndexEntry)) (k : Bytes)
    (h : (A.map Prod.fst).Nodup) : ((eraseIndex A k).map Prod.fst).Nodup :=
  ((eraseIndex_sublist A k).map Prod.fst).nodup h

theorem getFile_set (fs : List (Nat × Bytes)) (i : Nat) (b : Bytes) (j : Nat) :
    getFile (setFile fs i b) j = if i = j then b else getFile fs j := by
  induction fs with
  | nil => by_cases h : i = j <;> simp [setFile, getFile, h]
  | cons p rest ih =>
    obtain ⟨j0, c0⟩ := p
    by_cases h0 : j0 = i
    · subst h0
      by_cases h : j0 = j <;> simp [setFile, getFile, h]
    · by_cases h : j0 = j
      · subst h
        have hij : ¬ i = j0 := fun hc => h0 hc.symm
        simp [setFile, getFile, h0, hij]
      · simp [setFile, getFile, h0, h, ih]

theorem keys_setFile_mem (fs : List (Nat × Bytes)) (i : Nat) (b : Bytes)
    (h : i ∈ fs.map Prod.fst) : (setFile fs i b).map Prod.fst = fs.map Prod.fst := by
  induction fs with
  | nil => simp at h
  | cons p rest ih =>
    obtain ⟨j0, c0⟩ := p
    by_cases h0 : j0 = i
    · simp [setFile, h0]
    · simp only [List.map_cons, List.mem_cons] at h
      rcases h with h | h
      · exact absurd h.symm h0
      · simp [setFile, h0, ih h]

theorem getFile_not_mem (fs : List (Nat × Bytes)) (i : Nat)
    (h : i ∉ fs.map Prod.fst) : getFile fs i = [] := by
  induction fs with
  | nil => rfl
  | cons p rest ih =>
    obtain ⟨j0, c0⟩ := p
    simp only [List.map_cons, List.mem_cons] at h
    push_neg at h
    have : j0 ≠ i := fun hc => h.1 hc.symm
    simp [getFile, this, ih h.2]

theorem getFile_append_right (fs1 fs2 : List (Nat × Bytes)) (i : Nat)
    (h : i ∉ fs1.map Prod.fst) : getFile (fs1 ++ fs2) i = getFile fs2 i := by
  induction fs1 with
  | nil => simp
  | cons p rest ih =>
    obtain ⟨j0, c0⟩ := p
    simp only [List.map_cons, List.mem_cons] at h
    push_neg at h
    have : j0 ≠ i := fun hc => h.1 hc.symm
    simp [getFile, this, ih h.2]

theorem getFile_append_left (fs1 fs2 : List (Nat × Bytes)) (i : Nat)
    (h : i ∈ fs1.map Prod.fst) : getFile (fs1 ++ fs2) i = getFile fs1 i := by
  induction fs1 with
  | nil => simp at h
  | cons p rest ih =>
    obtain ⟨j0, c0⟩ := p
    by_cases h0 : j0 = i
    · simp [getFile, h0]
    · simp only [List.map_cons, List.mem_cons] at h
      rcases h with h | h
      · exact absurd h.symm h0
      · simp [getFile, h0, ih h]

theorem getFile_filter_not_mem (fs : List (Nat × Bytes)) (olds : List Nat) (i : Nat)
    (h : i ∉ olds) :
    getFile (fs.filter (fun p => !decide (p.1 ∈ olds))) i = getFile fs i := by
  induction fs with
  | nil => rfl
  | cons p rest ih =>
    obtain ⟨j0, c0⟩ := p
    by_cases hm : j0 ∈ olds
    · have hne : j0 ≠ i := fun hc => h (hc ▸ hm)
      simp only [List.filter_cons]
      rw [if_neg (by simpa using hm)]
      simp [getFile, hne, ih]
    · simp only [List.filter_cons]
      rw [if_pos (by simpa using hm)]
      by_cases h0 : j0 = i <;> simp [getFile, h0, ih]

/-- The error taxonomy from `error.rs`; wrapped errors carry their display
message. -/
inductive Error where
  | Io (msg : String)
  | Decode (msg : String)
  | Encode (msg : String)
  | Sled (msg : String)
  | KeyNotFound
  | WrongEngine
deriving Repr, DecidableEq

/-- `Writer::write` from `log.rs`: serialize the command at the cached offset
(the end of the file, since the writer is the sole appender and seeks to the
end on construction), return the new file content, the value offset
(`start_offset + VALUE_OFFSET`) and the number of bytes written. -/
def Writer.write (file : Bytes) (c : Command) : Bytes × Nat × Nat :=
  let bs := encodeCommand c
  (file ++ bs, file.length + VALUE_OFFSET, bs.length)

/-- `Reader::read_value` from `log.rs`: seek to `offset` and deserialize one
string value; `none` models the io/decode failure of reading past the data
or over bytes that are not a value. -/
def Reader.read_value (file : Bytes) (offset : Nat) : Option Bytes :=
  (decodeStr (file.drop offset)).map Prod.fst

/-- The `Store` from `engine/kvs.rs`.  `files` is the segment directory
(the on-disk `<index>.log` files); `readers` the indices with a cached
reader; the writer is represented by `log_index` together with the cached
offset, which always equals the length of the active file. -/
structure Store where
  log_index : Nat
  files : List (Nat × Bytes)
  readers : List Nat
  index : List (Bytes × IndexEntry)
  uncompacted : Nat
deriving Repr, DecidableEq

/-- `open_entry` from `engine/kvs.rs`: apply one replayed record to the
index and return the number of newly dead bytes.  In the `Set`-with-old-entry
branch the source runs `mem::replace(old_entry, new_entry)` and discards the
returned old entry, then reads `old_entry.length` through the mutated
reference, so the value added to `uncompacted` is the NEW entry's length. -/
def open_entry (log_index : Nat) (index : List (Bytes × IndexEntry)) (r : Record) :
    List (Bytes × IndexEntry) × Nat :=
  match r with
  | (Command.Set _ key, offset, length) =>
    let new_entry : IndexEntry :=
      { log_index := log_index, offset := offset, length := length }
    match lookupIndex index key with
    | some _ => (insertIndex index key new_entry, new_entry.length)
    | none => (insertIndex index key new_entry, 0)
  | (Command.Remove key, _, length) =>
    (eraseIndex index key, length + ((lookupIndex index key).map IndexEntry.length).getD 0)

/-- Replay one segment's records over the accumulated index and
`uncompacted` counter. -/
def replaySegment (log_index : Nat) (rs : List Record)
    (acc : List (Bytes × IndexEntry) × Nat) : List (Bytes × IndexEntry) × Nat :=
  rs.foldl (fun p r =>
    let q := open_entry log_index p.1 r
    (q.1, p.2 + q.2)) acc

/-- Replay all segments in ascending index order (`Store::open`'s loop);
`none` models a record decode error surfacing through `entry?`. -/
def replayAll (files : List (Nat × Bytes)) :
    List Nat → List (Bytes × IndexEntry) → Nat →
    Option (List (Bytes × IndexEntry) × Nat)
  | [], index, unc => some (index, unc)
  | i :: rest, index, unc =>
    match load (getFile files i) 0 with
    | none => none
    | some rs =>
      let p := replaySegment i rs (index, unc)
      replayAll files rest p.1 p.2

/-- `find_log_indices`: the segment indices present, sorted ascending. -/
def find_log_indices (files : List (Nat × Bytes)) : List Nat :=
  List.insertionSort (fun a b => a ≤ b) (files.map Prod.fst)

/-- `Store::open`, acting on the segment directory: replay all segments to
rebuild the index, attach the writer to the highest segment (creating `0.log`
in an empty directory), and cache a reader per segment. -/
def Store.open (files0 : List (Nat × Bytes)) : Except Error Store :=
  let log_indices := find_log_indices files0
  match replayAll files0 log_indices [] 0 with
  | none => Except.error (Error.Decode "invalid log record")
  | some (index, uncompacted) =>
    let write_index := log_indices.getLast?.getD 0
    let files1 := createFile files0 write_index
    let readers := if log_indices.isEmpty then [write_index] else log_indices
    Except.ok { log_index := write_index, files := files1, readers := readers,
                index := index, uncompacted := uncompacted }

/-- `Store::get`: consult the index; a missing key is `ok none`; otherwise
read the value through the entry's reader.  The outer `none` models the
`expect("Missing reader")` panic. -/
def Store.get (s : Store) (key : Bytes) : Option (Except Error (Option Bytes)) :=
  match lookupIndex s.index key with
  | none => some (Except.ok none)
  | some entry =>
    if entry.log_index ∈ s.readers then
      match Reader.read_value (getFile s.files entry.log_index) entry.offset with
      | some v => some (Except.ok (some v))
      | none => some (Except.error (Error.Decode "invalid value"))
    else none

/-- The loop inside `Store::compact`: for each index entry, read its live
value, append a `Set` to the compaction segment `ci`, and repoint the entry
at `ci`.  On a read failure the already-processed prefix keeps its new
entries (the source updates entries in place through `iter_mut`). -/
def compactLoop (ci : Nat) : List (Bytes × IndexEntry) → List (Nat × Bytes) →
    List Nat → Option (Except Error Unit × List (Bytes × IndexEntry) × List (Nat × Bytes))
  | [], files, _ => some (Except.ok (), [], files)
  | (k, e) :: rest, files, readers =>
    if e.log_index ∈ readers then
      match Reader.read_value (getFile files e.log_index) e.offset with
      | none => some (Except.error (Error.Decode "invalid value"), (k, e) :: rest, files)
      | some value =>
        let cfile := getFile files ci
        let w := Writer.write cfile (Command.Set value k)
        let files1 := setFile files ci w.1
        let e1 : IndexEntry := { log_index := ci, offset := w.2.1, length := w.2.2 }
        (compactLoop ci rest files1 readers).map
          (fun q => (q.1, (k, e1) :: q.2.1, q.2.2))
    else none

/-- `Store::compact`: open writers/readers for the compaction segment
`log_index + 1` and the new active segment `log_index + 2`, rewrite every
live entry into the compaction segment, delete all older segment files and
drop their readers, and reset `uncompacted`. -/
def Store.compact (s : Store) : Option (Except Error Unit × Store) :=
  let compaction_index := s.log_index + 1
  let files1 := createFile s.files compaction_index
  let readers1 := insertReader s.readers compaction_index
  let write_index := compaction_index + 1
  let files2 := createFile files1 write_index
  let readers2 := insertReader readers1 write_index
  match compactLoop compaction_index s.index files2 readers2 with
  | none => none
  | some (Except.error e, index1, files3) =>
    some (Except.error e,
      { s with
          log_index := write_index
          files := files3
          readers := readers2
          index := index1 })
  | some (Except.ok _, index1, files3) =>
    let old_log_indices := readers2.filter (fun i => decide (i < compaction_index))
    let files4 := files3.filter (fun p => !decide (p.1 ∈ old_log_indices))
    let readers3 := readers2.filter (fun i => !decide (i ∈ old_log_indices))
    some (Except.ok (),
      { log_index := write_index
        files := files4
        readers := readers3
        index := index1
        uncompacted := 0 })

/-- `Store::set`: append a `Set` record to the active segment, insert the
new index entry (an overwritten entry's length becomes dead bytes), and
compact once `uncompacted` passes the threshold. -/
def Store.set (s : Store) (key value : Bytes) : Option (Except Error Unit × Store) :=
  let command := Command.Set value key
  let file := getFile s.files s.log_index
  let w := Writer.write file command
  let files1 := setFile s.files s.log_index w.1
  let new_entry : IndexEntry :=
    { log_index := s.log_index, offset := w.2.1, length := w.2.2 }
  let old := lookupIndex s.index key
  let index1 := insertIndex s.index key new_entry
  let unc := s.uncompacted + (old.map IndexEntry.length).getD 0
  let s1 : Store := { s with files := files1, index := index1, uncompacted := unc }
  if unc > COMPACTION_THRESHOLD then s1.compact else some (Except.ok (), s1)

/-- `Store::remove`: a key absent from the index fails with `KeyNotFound`
before anything is written; otherwise append a `Remove` record, drop the
index entry, and count that entry's length (only) as dead bytes. -/
def Store.remove (s : Store) (key : Bytes) : Option (Except Error Unit × Store) :=
  if lookupIndex s.index key = none then some (Except.error Error.KeyNotFound, s)
  else
    let command := Command.Remove key
    let file := getFile s.files s.log_index
    let w := Writer.write file command
    let files1 := setFile s.files s.log_index w.1
    let old := lookupIndex s.index key
    let index1 := eraseIndex s.index key
    let unc := s.uncompacted + (old.map IndexEntry.length).getD 0
    some (Except.ok (), { s with files := files1, index := index1, uncompacted := unc })

theorem decodeStr_nil : decodeStr [] = none := rfl

theorem read_value_append (file ext : Bytes) (off : Nat) (v : Bytes)
    (h : Reader.read_value file off = some v) :
    Reader.read_value (file ++ ext) off = some v := by
  unfold Reader.read_value at h ⊢
  match hs : decodeStr (file.drop off) with
  | none => rw [hs] at h; exact absurd h (by simp)
  | some (v1, rest) =>
    rw [hs] at h
    simp only [Option.map_some', Option.some.injEq] at h
    subst h
    have hoff : off ≤ file.length := by
      by_contra hlt
      push_neg at hlt
      rw [List.drop_eq_nil_of_le (le_of_lt hlt), decodeStr_nil] at hs
      exact absurd hs (by simp)
    rw [List.drop_append_of_le_length hoff]
    rw [decodeStr_ext (file.drop off) ext v1 rest hs]
    rfl

theorem drop_length_add (l1 l2 : Bytes) (n : Nat) :
    (l1 ++ l2).drop (l1.length + n) = l2.drop n := by
  induction l1 with
  | nil => simp
  | cons x xs ih =>
    have : (x :: xs).length + n = (xs.length + n) + 1 := by simp; omega
    rw [this]
    simp only [List.cons_append, List.drop_succ_cons]
    exact ih

theorem read_value_write_set (file value key : Bytes) (hv : WFStr value) :
    Reader.read_value (Writer.write file (Command.Set value key)).1
      (Writer.write file (Command.Set value key)).2.1 = some value := by
  unfold Writer.write Reader.read_value
  simp only [encodeCommand]
  have h3 : file.length + VALUE_OFFSET = file.length + 3 := rfl
  rw [h3]
  have hdrop : (file ++ 146 :: 0 :: 146 :: (encodeStr value ++ encodeStr key)).drop
      (file.length + 3) = encodeStr value ++ encodeStr key := by
    rw [drop_length_add file (146 :: 0 :: 146 :: (encodeStr value ++ encodeStr key)) 3]
    rfl
  rw [hdrop, decodeStr_encodeStr value (encodeStr key) hv]
  rfl

/-- The store invariant, relating a `Store` to the abstract key-value map
`m` it represents.  Every component is established by `Store.open` on an
empty directory and preserved by `set`, `remove` and `compact`. -/
structure StoreInv (s : Store) (m : Bytes → Option Bytes) : Prop where
  uniqIndex : (s.index.map Prod.fst).Nodup
  uniqFiles : (s.files.map Prod.fst).Nodup
  activeReader : s.log_index ∈ s.readers
  readersEq : ∀ i, i ∈ s.readers ↔ i ∈ s.files.map Prod.fst
  readersBounded : ∀ i ∈ s.readers, i ≤ s.log_index
  entriesBounded : ∀ k e, lookupIndex s.index k = some e → e.log_index ≤ s.log_index
  modelsNone : ∀ k, m k = none → lookupIndex s.index k = none
  modelsSome : ∀ k v, m k = some v → ∃ e, lookupIndex s.index k = some e ∧
    e.log_index ∈ s.readers ∧
    Reader.read_value (getFile s.files e.log_index) e.offset = some v
  valsWF : ∀ k v, m k = some v → WFStr v
  keysWF : ∀ k e, lookupIndex s.index k = some e → WFStr k
  replayIdx : ∃ q, replayAll s.files (find_log_indices s.files) [] 0 = some q ∧
    ∀ k, lookupIndex q.1 k = lookupIndex s.index k

theorem lookup_some_of_m_some (s : Store) (m : Bytes → Option Bytes)
    (h : StoreInv s m) (k : Bytes) (e : IndexEntry)
    (hl : lookupIndex s.index k = some e) : ∃ v, m k = some v := by
  cases hm : m k with
  | none => rw [h.modelsNone k hm] at hl; exact absurd hl (by simp)
  | some v => exact ⟨v, rfl⟩

/-- Under the invariant, `get` returns exactly the abstract map's value. -/
theorem Store.get_models (s : Store) (m : Bytes → Option Bytes)
    (h : StoreInv s m) (k : Bytes) : s.get k = some (Except.ok (m k)) := by
  cases hm : m k with
  | none =>
    unfold Store.get
    simp only [h.modelsNone k hm]
  | some v =>
    obtain ⟨e, hl, hr, hv⟩ := h.modelsSome k v hm
    unfold Store.get
    simp only [hl, if_pos hr, hv]

/-- Pointwise update of the abstract map. -/
def mUpdate (m : Bytes → Option Bytes) (k : Bytes) (v : Option Bytes) :
    Bytes → Option Bytes :=
  fun q => if q = k then v else m q

theorem lookup_insert_congr (A B : List (Bytes × IndexEntry)) (k : Bytes)
    (e : IndexEntry) (h : ∀ q, lookupIndex A q = lookupIndex B q) (q : Bytes) :
    lookupIndex (insertIndex A k e) q = lookupIndex (insertIndex B k e) q := by
  rw [lookupIndex_insert, lookupIndex_insert, h]

theorem lookup_erase_congr (A B : List (Bytes × IndexEntry)) (k : Bytes)
    (hA : (A.map Prod.fst).Nodup) (hB : (B.map Prod.fst).Nodup)
    (h : ∀ q, lookupIndex A q = lookupIndex B q) (q : Bytes) :
    lookupIndex (eraseIndex A k) q = lookupIndex (eraseIndex B k) q := by
  by_cases hq : k = q
  · subst hq
    rw [lookupIndex_erase_self A k hA, lookupIndex_erase_self B k hB]
  · rw [lookupIndex_erase_ne A k q hq, lookupIndex_erase_ne B k q hq, h]

theorem find_log_indices_perm (fs : List (Nat × Bytes)) :
    (find_log_indices fs).Perm (fs.map Prod.fst) :=
  List.perm_insertionSort _ _

theorem find_log_indices_sorted (fs : List (Nat × Bytes)) :
    (find_log_indices fs).Sorted (fun a b => a ≤ b) :=
  List.sorted_insertionSort _ _

theorem sorted_max_concat (L : List Nat) (li : Nat)
    (hs : L.Sorted (fun a b => a ≤ b)) (hn : L.Nodup)
    (hmem : li ∈ L) (hmax : ∀ i ∈ L, i ≤ li) :
    ∃ init, L = init ++ [li] ∧ li ∉ init := by
  rcases List.eq_nil_or_concat L with h | ⟨init, a, rfl⟩
  · subst h; simp at hmem
  · simp only [List.concat_eq_append] at hs hn hmem hmax ⊢
    have ha : a ≤ li := hmax a (by simp)
    have hla : li ≤ a := by
      rcases List.mem_append.mp hmem with h | h
      · exact (List.pairwise_append.mp hs).2.2 li h a (by simp)
      · simp at h; omega
    have hali : a = li := le_antisymm ha hla
    subst hali
    refine ⟨init, rfl, ?_⟩
    have hd := (List.nodup_append.mp hn).2.2
    intro hc
    exact hd hc (by simp)

theorem replayAll_congr (fs1 fs2 : List (Nat × Bytes)) (L : List Nat)
    (h : ∀ i ∈ L, getFile fs1 i = getFile fs2 i) :
    ∀ idx unc, replayAll fs1 L idx unc = replayAll fs2 L idx unc := by
  induction L with
  | nil => intro idx unc; rfl
  | cons i rest ih =>
    intro idx unc
    simp only [replayAll]
    rw [h i (by simp)]
    cases hld : load (getFile fs2 i) 0 with
    | none => rfl
    | some rs => exact ih (fun j hj => h j (by simp [hj])) _ _

theorem replayAll_append (fs : List (Nat × Bytes)) (L1 L2 : List Nat)
    (idx : List (Bytes × IndexEntry)) (unc : Nat) :
    replayAll fs (L1 ++ L2) idx unc =
      (replayAll fs L1 idx unc).bind (fun p => replayAll fs L2 p.1 p.2) := by
  induction L1 generalizing idx unc with
  | nil => simp [replayAll]
  | cons i rest ih =>
    simp only [List.cons_append, replayAll]
    cases hld : load (getFile fs i) 0 with
    | none => rfl
    | some rs => exact ih _ _

theorem replaySegment_append (li : Nat) (rs1 rs2 : List Record)
    (acc : List (Bytes × IndexEntry) × Nat) :
    replaySegment li (rs1 ++ rs2) acc = replaySegment li rs2 (replaySegment li rs1 acc) := by
  unfold replaySegment
  exact List.foldl_append _ _ _ _

theorem replaySegment_single (li : Nat) (r : Record)
    (acc : List (Bytes × IndexEntry) × Nat) :
    replaySegment li [r] acc =
      ((open_entry li acc.1 r).1, acc.2 + (open_entry li acc.1 r).2) := rfl

theorem open_entry_fst_set (li : Nat) (idx : List (Bytes × IndexEntry))
    (v k : Bytes) (off len : Nat) :
    (open_entry li idx (Command.Set v k, off, len)).1 =
      insertIndex idx k { log_index := li, offset := off, length := len } := by
  cases hcl : lookupIndex idx k <;> simp [open_entry, hcl]

theorem open_entry_fst_remove (li : Nat) (idx : List (Bytes × IndexEntry))
    (k : Bytes) (off len : Nat) :
    (open_entry li idx (Command.Remove k, off, len)).1 = eraseIndex idx k := rfl

theorem nodup_open_entry (li : Nat) (idx : List (Bytes × IndexEntry)) (r : Record)
    (h : (idx.map Prod.fst).Nodup) : ((open_entry li idx r).1.map Prod.fst).Nodup := by
  obtain ⟨c, off, len⟩ := r
  cases c with
  | Set v k =>
    rw [open_entry_fst_set]
    exact nodup_keys_insertIndex idx k _ h
  | Remove k =>
    rw [open_entry_fst_remove]
    exact nodup_keys_eraseIndex idx k h

theorem nodup_replaySegment (li : Nat) (rs : List Record)
    (acc : List (Bytes × IndexEntry) × Nat) (h : (acc.1.map Prod.fst).Nodup) :
    ((replaySegment li rs acc).1.map Prod.fst).Nodup := by
  induction rs generalizing acc with
  | nil => exact h
  | cons r rest ih =>
    unfold replaySegment at ih ⊢
    simp only [List.foldl_cons]
    exact ih _ (nodup_open_entry li acc.1 r h)

theorem nodup_replayAll (fs : List (Nat × Bytes)) (L : List Nat)
    (idx : List (Bytes × IndexEntry)) (unc : Nat)
    (q : List (Bytes × IndexEntry) × Nat) (h : (idx.map Prod.fst).Nodup)
    (hq : replayAll fs L idx unc = some q) : (q.1.map Prod.fst).Nodup := by
  induction L generalizing idx unc with
  | nil =>
    simp only [replayAll, Option.some.injEq] at hq
    rw [← hq]
    exact h
  | cons i rest ih =>
    simp only [replayAll] at hq
    cases hld : load (getFile fs i) 0 with
    | none => rw [hld] at hq; exact absurd hq (by simp)
    | some rs =>
      rw [hld] at hq
      exact ih _ _ (nodup_replaySegment i rs (idx, unc) h) hq

/-- Decompose a store's replay into the older segments and the active one. -/
theorem replay_decomp (s : Store) (m : Bytes → Option Bytes) (h : StoreInv s m) :
    ∃ init idxA uA rs q,
      find_log_indices s.files = init ++ [s.log_index] ∧
      s.log_index ∉ init ∧
      (∀ i ∈ init, i ∈ s.files.map Prod.fst) ∧
      replayAll s.files init [] 0 = some (idxA, uA) ∧
      load (getFile s.files s.log_index) 0 = some rs ∧
      replaySegment s.log_index rs (idxA, uA) = q ∧
      (∀ k, lookupIndex q.1 k = lookupIndex s.index k) ∧
      (q.1.map Prod.fst).Nodup := by
  have hmemk : s.log_index ∈ s.files.map Prod.fst :=
    (h.readersEq s.log_index).mp h.activeReader
  have hmemL : s.log_index ∈ find_log_indices s.files :=
    (find_log_indices_perm s.files).mem_iff.mpr hmemk
  have hmaxL : ∀ i ∈ find_log_indices s.files, i ≤ s.log_index := by
    intro i hi
    have : i ∈ s.files.map Prod.fst := (find_log_indices_perm s.files).mem_iff.mp hi
    exact h.readersBounded i ((h.readersEq i).mpr this)
  have hnL : (find_log_indices s.files).Nodup :=
    (find_log_indices_perm s.files).nodup_iff.mpr h.uniqFiles
  obtain ⟨init, hL, hnot⟩ := sorted_max_concat _ s.log_index
    (find_log_indices_sorted s.files) hnL hmemL hmaxL
  obtain ⟨qq, hrep, hlk⟩ := h.replayIdx
  rw [hL, replayAll_append] at hrep
  match hA : replayAll s.files init [] 0 with
  | none => rw [hA] at hrep; exact absurd hrep (by simp)
  | some p =>
    rw [hA] at hrep
    simp only [Option.bind_some, replayAll] at hrep
    match hld : load (getFile s.files s.log_index) 0 with
    | none => rw [hld] at hrep; exact absurd hrep (by simp)
    | some rs =>
      rw [hld] at hrep
      simp only [replayAll, Option.some_bind, Option.some.injEq] at hrep
      refine ⟨init, p.1, p.2, rs, qq, hL, hnot, ?_, by rw [hA], rfl, hrep, hlk, ?_⟩
      · intro i hi
        have : i ∈ find_log_indices s.files := by rw [hL]; simp [hi]
        exact (find_log_indices_perm s.files).mem_iff.mp this
      · have hnp : (p.1.map Prod.fst).Nodup :=
          nodup_replayAll s.files init [] 0 p (by simp) hA
        rw [← hrep]
        exact nodup_replaySegment s.log_index rs (p.1, p.2) hnp

theorem find_log_indices_setFile_active (s : Store) (m : Bytes → Option Bytes)
    (h : StoreInv s m) (b : Bytes) :
    find_log_indices (setFile s.files s.log_index b) = find_log_indices s.files := by
  unfold find_log_indices
  rw [keys_setFile_mem s.files s.log_index b ((h.readersEq s.log_index).mp h.activeReader)]

/-- Appending one well-formed record to the active segment changes the
replayed index by exactly one `open_entry` step applied to (a lookup
equivalent of) the in-memory index. -/
theorem replay_append_active (s : Store) (m : Bytes → Option Bytes)
    (h : StoreInv s m) (c : Command) (hc : c.WF) :
    ∃ q', replayAll (setFile s.files s.log_index
        (getFile s.files s.log_index ++ encodeCommand c))
        (find_log_indices (setFile s.files s.log_index
          (getFile s.files s.log_index ++ encodeCommand c))) [] 0 = some q' ∧
      (q'.1.map Prod.fst).Nodup ∧
      ∀ k, lookupIndex q'.1 k = lookupIndex (open_entry s.log_index s.index
        (c, (getFile s.files s.log_index).length + VALUE_OFFSET,
          (encodeCommand c).length)).1 k := by
  obtain ⟨init, idxA, uA, rs, q, hL, hnot, hinitmem, hA, hld, hseg, hlk, hnod⟩ :=
    replay_decomp s m h
  set file := getFile s.files s.log_index with hfile
  set files1 := setFile s.files s.log_index (file ++ encodeCommand c) with hfiles1
  have hfind : find_log_indices files1 = init ++ [s.log_index] := by
    rw [hfiles1, find_log_indices_setFile_active s m h, hL]
  have hcongr : replayAll files1 init [] 0 = some (idxA, uA) := by
    rw [replayAll_congr files1 s.files init ?_ [] 0]
    · exact hA
    · intro i hi
      have hne : s.log_index ≠ i := fun hc2 => hnot (hc2 ▸ hi)
      rw [hfiles1, getFile_set]
      rw [if_neg hne]
  have hgetact : getFile files1 s.log_index = file ++ encodeCommand c := by
    rw [hfiles1, getFile_set, if_pos rfl]
  have hload : load (getFile files1 s.log_index) 0 =
      some (rs ++ [(c, 0 + file.length + VALUE_OFFSET, (encodeCommand c).length)]) := by
    rw [hgetact]
    exact load_append_encode file c 0 rs hld hc
  set rec := (c, 0 + file.length + VALUE_OFFSET, (encodeCommand c).length) with hrec
  have hseg2 : replaySegment s.log_index (rs ++ [rec]) (idxA, uA) =
      ((open_entry s.log_index q.1 rec).1, q.2 + (open_entry s.log_index q.1 rec).2) := by
    rw [replaySegment_append, hseg, ← replaySegment_single]
  refine ⟨((open_entry s.log_index q.1 rec).1,
      q.2 + (open_entry s.log_index q.1 rec).2), ?_, ?_, ?_⟩
  · rw [hfind, replayAll_append, hcongr]
    simp only [Option.some_bind, replayAll]
    rw [hload]
    simp only [replayAll, Option.some.injEq]
    rw [hseg2]
  · exact nodup_open_entry s.log_index q.1 rec hnod
  · intro k
    have hoff : (0 : Nat) + file.length + VALUE_OFFSET = file.length + VALUE_OFFSET := by
      omega
    cases c with
    | Set v key =>
      show lookupIndex (open_entry s.log_index q.1 rec).1 k = _
      rw [hrec, hoff]
      rw [open_entry_fst_set, open_entry_fst_set]
      exact lookup_insert_congr q.1 s.index key _ hlk k
    | Remove key =>
      show lookupIndex (open_entry s.log_index q.1 rec).1 k = _
      rw [hrec, hoff]
      rw [open_entry_fst_remove, open_entry_fst_remove]
      exact lookup_erase_congr q.1 s.index key hnod h.uniqIndex hlk k

/-- `remove` on a present key: the exact post-state and invariant
preservation (the uncompacted counter grows by the removed entry's length
only; the appended `Remove` record's own length is not added). -/
theorem Store.remove_inv (s : Store) (m : Bytes → Option Bytes) (h : StoreInv s m)
    (k : Bytes) (e : IndexEntry) (hl : lookupIndex s.index k = some e) :
    ∃ s', s.remove k = some (Except.ok (), s') ∧
      s'.log_index = s.log_index ∧
      s'.readers = s.readers ∧
      s'.files = setFile s.files s.log_index
        (getFile s.files s.log_index ++ encodeCommand (Command.Remove k)) ∧
      s'.index = eraseIndex s.index k ∧
      s'.uncompacted = s.uncompacted + e.length ∧
      StoreInv s' (mUpdate m k none) := by
  have hne : ¬ lookupIndex s.index k = none := by rw [hl]; simp
  have hactmem : s.log_index ∈ s.files.map Prod.fst :=
    (h.readersEq s.log_index).mp h.activeReader
  refine ⟨{ s with
      files := setFile s.files s.log_index
        (getFile s.files s.log_index ++ encodeCommand (Command.Remove k))
      index := eraseIndex s.index k
      uncompacted := s.uncompacted + e.length }, ?_, rfl, rfl, rfl, rfl, rfl, ?_⟩
  · unfold Store.remove
    rw [if_neg hne]
    simp only [Writer.write, hl, Option.map_some', Option.getD_some]
  · have hkeysfiles : (setFile s.files s.log_index
        (getFile s.files s.log_index ++ encodeCommand (Command.Remove k))).map Prod.fst
        = s.files.map Prod.fst :=
      keys_setFile_mem s.files s.log_index _ hactmem
    refine ⟨?_, ?_, ?_, ?_, ?_, ?_, ?_, ?_, ?_, ?_, ?_⟩
    · exact nodup_keys_eraseIndex s.index k h.uniqIndex
    · show ((setFile s.files s.log_index _).map Prod.fst).Nodup
      rw [hkeysfiles]
      exact h.uniqFiles
    · exact h.activeReader
    · intro i
      show i ∈ s.readers ↔ i ∈ (setFile s.files s.log_index _).map Prod.fst
      rw [hkeysfiles]
      exact h.readersEq i
    · exact h.readersBounded
    · intro q e' hq
      by_cases hqk : q = k
      · subst hqk
        rw [lookupIndex_erase_self s.index q h.uniqIndex] at hq
        exact absurd hq (by simp)
      · rw [lookupIndex_erase_ne s.index k q (fun hc => hqk hc.symm)] at hq
        exact h.entriesBounded q e' hq
    · intro q hq
      by_cases hqk : q = k
      · subst hqk
        exact lookupIndex_erase_self s.index q h.uniqIndex
      · unfold mUpdate at hq
        rw [if_neg hqk] at hq
        rw [lookupIndex_erase_ne s.index k q (fun hc => hqk hc.symm)]
        exact h.modelsNone q hq
    · intro q v hq
      by_cases hqk : q = k
      · subst hqk
        unfold mUpdate at hq
        rw [if_pos rfl] at hq
        exact absurd hq (by simp)
      · unfold mUpdate at hq
        rw [if_neg hqk] at hq
        obtain ⟨e', hl', hr', hv'⟩ := h.modelsSome q v hq
        refine ⟨e', ?_, hr', ?_⟩
        · rw [lookupIndex_erase_ne s.index k q (fun hc => hqk hc.symm)]
          exact hl'
        · show Reader.read_value (getFile (setFile s.files s.log_index _) e'.log_index)
            e'.offset = some v
          rw [getFile_set]
          by_cases hli : s.log_index = e'.log_index
          · rw [if_pos hli]
            rw [← hli] at hv'
            exact read_value_append _ _ _ _ hv'
          · rw [if_neg hli]
            exact hv'
    · intro q v hq
      by_cases hqk : q = k
      · subst hqk
        unfold mUpdate at hq
        rw [if_pos rfl] at hq
        exact absurd hq (by simp)
      · unfold mUpdate at hq
        rw [if_neg hqk] at hq
        exact h.valsWF q v hq
    · intro q e' hq
      by_cases hqk : q = k
      · subst hqk
        rw [lookupIndex_erase_self s.index q h.uniqIndex] at hq
        exact absurd hq (by simp)
      · rw [lookupIndex_erase_ne s.index k q (fun hc => hqk hc.symm)] at hq
        exact h.keysWF q e' hq
    · obtain ⟨q', hq', hnod', hlkq⟩ :=
        replay_append_active s m h (Command.Remove k) (h.keysWF k e hl)
      refine ⟨q', hq', ?_⟩
      intro q2
      rw [hlkq q2, open_entry_fst_remove]

/-- The store state after `set`'s append and index update, before the
compaction check. -/
def setState (s : Store) (key value : Bytes) : Store :=
  { s with
      files := setFile s.files s.log_index
        (getFile s.files s.log_index ++ encodeCommand (Command.Set value key))
      index := insertIndex s.index key
        { log_index := s.log_index
          offset := (getFile s.files s.log_index).length + VALUE_OFFSET
          length := (encodeCommand (Command.Set value key)).length }
      uncompacted := s.uncompacted +
        ((lookupIndex s.index key).map IndexEntry.length).getD 0 }

theorem Store.set_eq (s : Store) (key value : Bytes) :
    s.set key value =
      if (setState s key value).uncompacted > COMPACTION_THRESHOLD then
        (setState s key value).compact
      else some (Except.ok (), setState s key value) := rfl

/-- The new index entry written by `set`. -/
theorem setState_uncompacted_some (s : Store) (key value : Bytes) (e : IndexEntry)
    (hl : lookupIndex s.index key = some e) :
    (setState s key value).uncompacted = s.uncompacted + e.length := by
  unfold setState
  rw [hl]
  rfl

theorem set_pre_inv (s : Store) (m : Bytes → Option Bytes) (h : StoreInv s m)
    (key value : Bytes) (hkw : WFStr key) (hvw : WFStr value) :
    StoreInv (setState s key value) (mUpdate m key (some value)) := by
  have hactmem : s.log_index ∈ s.files.map Prod.fst :=
    (h.readersEq s.log_index).mp h.activeReader
  have hkeysfiles : ((setState s key value).files).map Prod.fst = s.files.map Prod.fst :=
    keys_setFile_mem s.files s.log_index _ hactmem
  refine ⟨?_, ?_, ?_, ?_, ?_, ?_, ?_, ?_, ?_, ?_, ?_⟩
  · exact nodup_keys_insertIndex s.index key _ h.uniqIndex
  · rw [hkeysfiles]
    exact h.uniqFiles
  · exact h.activeReader
  · intro i
    show i ∈ s.readers ↔ _
    rw [hkeysfiles]
    exact h.readersEq i
  · exact h.readersBounded
  · intro q e' hq
    show e'.log_index ≤ s.log_index
    rw [show (setState s key value).index = insertIndex s.index key _ from rfl] at hq
    rw [lookupIndex_insert] at hq
    by_cases hqk : key = q
    · rw [if_pos hqk] at hq
      simp only [Option.some.injEq] at hq
      rw [← hq]
    · rw [if_neg hqk] at hq
      exact h.entriesBounded q e' hq
  · intro q hq
    unfold mUpdate at hq
    by_cases hqk : q = key
    · rw [if_pos hqk] at hq
      exact absurd hq (by simp)
    · rw [if_neg hqk] at hq
      show lookupIndex (insertIndex s.index key _) q = none
      rw [lookupIndex_insert]
      rw [if_neg (fun hc => hqk hc.symm)]
      exact h.modelsNone q hq
  · intro q v hq
    unfold mUpdate at hq
    by_cases hqk : q = key
    · subst hqk
      rw [if_pos rfl] at hq
      simp only [Option.some.injEq] at hq
      subst hq
      refine ⟨{ log_index := s.log_index,
                offset := (getFile s.files s.log_index).length + VALUE_OFFSET,
                length := (encodeCommand (Command.Set value q)).length }, ?_,
        h.activeReader, ?_⟩
      · show lookupIndex (insertIndex s.index q _) q = some _
        rw [lookupIndex_insert, if_pos rfl]
      · show Reader.read_value
          (getFile (setFile s.files s.log_index _) s.log_index) _ = some value
        rw [getFile_set, if_pos rfl]
        exact read_value_write_set (getFile s.files s.log_index) value q hvw
    · rw [if_neg hqk] at hq
      obtain ⟨e', hl', hr', hv'⟩ := h.modelsSome q v hq
      refine ⟨e', ?_, hr', ?_⟩
      · show lookupIndex (insertIndex s.index key _) q = some e'
        rw [lookupIndex_insert, if_neg (fun hc => hqk hc.symm)]
        exact hl'
      · show Reader.read_value (getFile (setFile s.files s.log_index _) e'.log_index)
          e'.offset = some v
        rw [getFile_set]
        by_cases hli : s.log_index = e'.log_index
        · rw [if_pos hli]
          rw [← hli] at hv'
          exact read_value_append _ _ _ _ hv'
        · rw [if_neg hli]
          exact hv'
  · intro q v hq
    unfold mUpdate at hq
    by_cases hqk : q = key
    · rw [if_pos hqk] at hq
      simp only [Option.some.injEq] at hq
      rw [← hq]
      exact hvw
    · rw [if_neg hqk] at hq
      exact h.valsWF q v hq
  · intro q e' hq
    rw [show (setState s key value).index = insertIndex s.index key _ from rfl] at hq
    rw [lookupIndex_insert] at hq
    by_cases hqk : key = q
    · rw [← hqk]
      exact hkw
    · rw [if_neg hqk] at hq
      exact h.keysWF q e' hq
  · obtain ⟨q', hq', hnod', hlkq⟩ :=
      replay_append_active s m h (Command.Set value key) ⟨hvw, hkw⟩
    refine ⟨q', hq', ?_⟩
    intro q2
    rw [hlkq q2, open_entry_fst_set]
    exact rfl

theorem insertIndex_not_mem (A : List (Bytes × IndexEntry)) (k : Bytes) (e : IndexEntry)
    (h : k ∉ A.map Prod.fst) : insertIndex A k e = A ++ [(k, e)] := by
  induction A with
  | nil => rfl
  | cons p rest ih =>
    obtain ⟨k0, e0⟩ := p
    simp only [List.map_cons, List.mem_cons] at h
    push_neg at h
    have hne : k0 ≠ k := fun hc => h.1 hc.symm
    simp [insertIndex, hne, ih h.2]

theorem lookupIndex_append_none (A B : List (Bytes × IndexEntry)) (k : Bytes)
    (h : lookupIndex A k = none) : lookupIndex (A ++ B) k = lookupIndex B k := by
  induction A with
  | nil => rfl
  | cons p rest ih =>
    obtain ⟨k0, e0⟩ := p
    by_cases h0 : k0 = k
    · simp [lookupIndex, h0] at h
    · simp only [lookupIndex, if_neg h0] at h
      simp [lookupIndex, h0, ih h]

theorem mem_of_lookup (A : List (Bytes × IndexEntry)) (k : Bytes) (e : IndexEntry)
    (h : lookupIndex A k = some e) : (k, e) ∈ A := by
  induction A with
  | nil => simp [lookupIndex] at h
  | cons p rest ih =>
    obtain ⟨k0, e0⟩ := p
    by_cases h0 : k0 = k
    · subst h0
      simp [lookupIndex] at h
      subst h
      simp
    · simp only [lookupIndex, if_neg h0] at h
      simp [ih h]

theorem lookup_of_mem_nodup (A : List (Bytes × IndexEntry)) (k : Bytes) (e : IndexEntry)
    (hn : (A.map Prod.fst).Nodup) (h : (k, e) ∈ A) : lookupIndex A k = some e := by
  induction A with
  | nil => simp at h
  | cons p rest ih =>
    obtain ⟨k0, e0⟩ := p
    simp only [List.map_cons, List.nodup_cons] at hn
    rcases List.mem_cons.mp h with h1 | h1
    · have hk : k0 = k := by
        have := congrArg Prod.fst h1
        exact this.symm
      have he : e0 = e := by
        have := congrArg Prod.snd h1
        exact this.symm
      subst hk
      subst he
      simp [lookupIndex]
    · have hk0 : k0 ≠ k := by
        intro hc
        subst hc
        exact hn.1 (List.mem_map.mpr ⟨(k0, e), h1, rfl⟩)
      simp [lookupIndex, hk0, ih hn.2 h1]

theorem lookupIndex_none_not_mem (A : List (Bytes × IndexEntry)) (k : Bytes)
    (h : lookupIndex A k = none) : k ∉ A.map Prod.fst := by
  induction A with
  | nil => simp
  | cons p rest ih =>
    obtain ⟨k0, e0⟩ := p
    by_cases h0 : k0 = k
    · simp [lookupIndex, h0] at h
    · simp only [lookupIndex, if_neg h0] at h
      simp only [List.map_cons, List.mem_cons]
      push_neg
      exact ⟨fun hc => h0 hc.symm, ih h⟩

theorem open_entry_set_none (li : Nat) (idx : List (Bytes × IndexEntry))
    (v k : Bytes) (off len : Nat) (h : lookupIndex idx k = none) :
    open_entry li idx (Command.Set v k, off, len) =
      (insertIndex idx k { log_index := li, offset := off, length := len }, 0) := by
  simp [open_entry, h]

theorem open_entry_set_some (li : Nat) (idx : List (Bytes × IndexEntry))
    (v k : Bytes) (off len : Nat) (e : IndexEntry) (h : lookupIndex idx k = some e) :
    open_entry li idx (Command.Set v k, off, len) =
      (insertIndex idx k { log_index := li, offset := off, length := len }, len) := by
  simp [open_entry, h]

theorem open_entry_remove_eq (li : Nat) (idx : List (Bytes × IndexEntry))
    (k : Bytes) (off len : Nat) :
    open_entry li idx (Command.Remove k, off, len) =
      (eraseIndex idx k, len + ((lookupIndex idx k).map IndexEntry.length).getD 0) := rfl

theorem compactLoop_cons_some (ci : Nat) (k : Bytes) (e : IndexEntry)
    (rest : List (Bytes × IndexEntry)) (fs : List (Nat × Bytes)) (rds : List Nat)
    (v : Bytes) (hrd : e.log_index ∈ rds)
    (hread : Reader.read_value (getFile fs e.log_index) e.offset = some v) :
    compactLoop ci ((k, e) :: rest) fs rds =
      (compactLoop ci rest (setFile fs ci (getFile fs ci ++
        encodeCommand (Command.Set v k))) rds).map
        (fun q => (q.1, (k, (IndexEntry.mk ci ((getFile fs ci).length + VALUE_OFFSET) ((encodeCommand (Command.Set v k)).length))) :: q.2.1, q.2.2)) := by
  simp only [compactLoop]
  rw [if_pos hrd, hread]
  rfl

/-- Specification of `compactLoop`: under the readability hypotheses it
succeeds, appends to segment `ci` one decodable `Set` record per live pair,
leaves every other segment untouched, produces an index whose entries all
point into `ci` and read back their original values, and replaying the
appended records rebuilds exactly that index. -/
theorem compactLoop_spec (ci : Nat) (mv : Bytes → Option Bytes) (rds : List Nat) :
    ∀ (todo : List (Bytes × IndexEntry)) (fs : List (Nat × Bytes)) (rs0 : List Record),
    (todo.map Prod.fst).Nodup →
    ci ∈ fs.map Prod.fst →
    (∀ p ∈ todo, (p : Bytes × IndexEntry).2.log_index ∈ rds) →
    (∀ p ∈ todo, (p : Bytes × IndexEntry).2.log_index ≠ ci) →
    (∀ p ∈ todo, ∃ v, mv (p : Bytes × IndexEntry).1 = some v ∧
      Reader.read_value (getFile fs p.2.log_index) p.2.offset = some v ∧
      WFStr v ∧ WFStr p.1) →
    load (getFile fs ci) 0 = some rs0 →
    ∃ idx2 fs2 rs2,
      compactLoop ci todo fs rds = some (Except.ok (), idx2, fs2) ∧
      (∀ j, j ≠ ci → getFile fs2 j = getFile fs j) ∧
      fs2.map Prod.fst = fs.map Prod.fst ∧
      (∃ ext, getFile fs2 ci = getFile fs ci ++ ext) ∧
      load (getFile fs2 ci) 0 = some (rs0 ++ rs2) ∧
      idx2.map Prod.fst = todo.map Prod.fst ∧
      (∀ p ∈ idx2, (p : Bytes × IndexEntry).2.log_index = ci ∧
        Reader.read_value (getFile fs2 ci) p.2.offset = mv p.1) ∧
      (∀ (J : List (Bytes × IndexEntry)) (unc : Nat),
        (∀ kk ∈ todo.map Prod.fst, lookupIndex J kk = none) →
        replaySegment ci rs2 (J, unc) = (J ++ idx2, unc)) := by
  intro todo
  induction todo with
  | nil =>
    intro fs rs0 _ _ _ _ _ hload
    refine ⟨[], fs, [], rfl, fun j _ => rfl, rfl, ⟨[], by simp⟩, by simpa using hload,
      rfl, by simp, ?_⟩
    intro J unc _
    simp [replaySegment]
  | cons p rest ih =>
    obtain ⟨k, e⟩ := p
    intro fs rs0 hnod hci h1 h2 h3 hload
    obtain ⟨v, hmv0, hread0, hvw, hkw0⟩ := h3 (k, e) (by simp)
    have hmv : mv k = some v := hmv0
    have hread : Reader.read_value (getFile fs e.log_index) e.offset = some v := hread0
    have hkw : WFStr k := hkw0
    have hrd : e.log_index ∈ rds := h1 (k, e) (by simp)
    have hlne : e.log_index ≠ ci := h2 (k, e) (by simp)
    simp only [List.map_cons, List.nodup_cons] at hnod
    have hget1ci : getFile (setFile fs ci (getFile fs ci ++
        encodeCommand (Command.Set v k))) ci =
        getFile fs ci ++ encodeCommand (Command.Set v k) := by
      rw [getFile_set, if_pos rfl]
    have hget1 : ∀ j, j ≠ ci → getFile (setFile fs ci (getFile fs ci ++
        encodeCommand (Command.Set v k))) j = getFile fs j := by
      intro j hj
      rw [getFile_set, if_neg (fun hc => hj hc.symm)]
    have hkeys1 : (setFile fs ci (getFile fs ci ++
        encodeCommand (Command.Set v k))).map Prod.fst = fs.map Prod.fst :=
      keys_setFile_mem fs ci _ hci
    have hload1 : load (getFile (setFile fs ci (getFile fs ci ++
        encodeCommand (Command.Set v k))) ci) 0 =
        some (rs0 ++ [(Command.Set v k, (getFile fs ci).length + VALUE_OFFSET,
          (encodeCommand (Command.Set v k)).length)]) := by
      rw [hget1ci]
      have hh := load_append_encode (getFile fs ci) (Command.Set v k) 0 rs0 hload ⟨hvw, hkw⟩
      simpa using hh
    obtain ⟨idx2, fs2, rs2, hloop, hothers, hkeys2, hext, hload2, hkeysidx, hmem2, hreplay⟩ :=
      ih (setFile fs ci (getFile fs ci ++ encodeCommand (Command.Set v k)))
        (rs0 ++ [(Command.Set v k, (getFile fs ci).length + VALUE_OFFSET,
          (encodeCommand (Command.Set v k)).length)])
        hnod.2 (by rw [hkeys1]; exact hci)
        (fun q hq => h1 q (by simp [hq]))
        (fun q hq => h2 q (by simp [hq]))
        (fun q hq => by
          obtain ⟨v2, hv2, hr2, hw2, hw3⟩ := h3 q (by simp [hq])
          exact ⟨v2, hv2, by
            rw [hget1 q.2.log_index (h2 q (by simp [hq]))]
            exact hr2, hw2, hw3⟩)
        hload1
    refine ⟨(k, (IndexEntry.mk ci ((getFile fs ci).length + VALUE_OFFSET) ((encodeCommand (Command.Set v k)).length))) :: idx2, fs2,
      (Command.Set v k, (getFile fs ci).length + VALUE_OFFSET,
        (encodeCommand (Command.Set v k)).length) :: rs2, ?_, ?_, ?_, ?_, ?_, ?_, ?_, ?_⟩
    · rw [compactLoop_cons_some ci k e rest fs rds v hrd hread, hloop]
      rfl
    · intro j hj
      rw [hothers j hj, hget1 j hj]
    · rw [hkeys2, hkeys1]
    · obtain ⟨ext, hext2⟩ := hext
      refine ⟨encodeCommand (Command.Set v k) ++ ext, ?_⟩
      rw [hext2, hget1ci, List.append_assoc]
    · rw [hload2, List.append_assoc]
      rfl
    · simp [hkeysidx]
    · intro q hq
      rcases List.mem_cons.mp hq with h4 | h4
      · subst h4
        refine ⟨rfl, ?_⟩
        obtain ⟨ext, hext2⟩ := hext
        rw [hext2, hget1ci]
        show Reader.read_value (getFile fs ci ++ encodeCommand (Command.Set v k) ++ ext)
          ((getFile fs ci).length + VALUE_OFFSET) = mv k
        rw [hmv]
        have hrv : Reader.read_value (getFile fs ci ++ encodeCommand (Command.Set v k))
            ((getFile fs ci).length + VALUE_OFFSET) = some v :=
          read_value_write_set (getFile fs ci) v k hvw
        exact read_value_append _ ext _ v hrv
      · exact hmem2 q h4
    · intro J unc hJ
      have hJk : lookupIndex J k = none := hJ k (by simp)
      have hstep : replaySegment ci [(Command.Set v k,
          (getFile fs ci).length + VALUE_OFFSET,
          (encodeCommand (Command.Set v k)).length)] (J, unc) =
          (J ++ [(k, (IndexEntry.mk ci ((getFile fs ci).length + VALUE_OFFSET) ((encodeCommand (Command.Set v k)).length)))], unc) := by
        rw [replaySegment_single]
        rw [open_entry_set_none ci J v k _ _ hJk]
        rw [insertIndex_not_mem J k _ (lookupIndex_none_not_mem J k hJk)]
        simp
      have hcons : (Command.Set v k, (getFile fs ci).length + VALUE_OFFSET,
          (encodeCommand (Command.Set v k)).length) :: rs2 =
          [(Command.Set v k, (getFile fs ci).length + VALUE_OFFSET,
            (encodeCommand (Command.Set v k)).length)] ++ rs2 := rfl
      rw [hcons, replaySegment_append, hstep]
      rw [hreplay (J ++ [(k, (IndexEntry.mk ci ((getFile fs ci).length + VALUE_OFFSET) ((encodeCommand (Command.Set v k)).length)))]) unc ?_]
      · simp
      · intro kk hkk
        have hkkne : k ≠ kk := fun hc => hnod.1 (hc ▸ hkk)
        rw [lookupIndex_append_none J _ kk (hJ kk (by simp [hkk]))]
        show (if k = kk then some _ else lookupIndex [] kk) = none
        rw [if_neg hkkne]
        rfl
theorem createFile_not_mem (fs : List (Nat × Bytes)) (i : Nat)
    (h : i ∉ fs.map Prod.fst) : createFile fs i = fs ++ [(i, [])] := by
  unfold createFile
  rw [if_neg h]

theorem insertReader_not_mem (rds : List Nat) (i : Nat) (h : i ∉ rds) :
    insertReader rds i = i :: rds := by
  unfold insertReader
  rw [if_neg h]

theorem filter_lt_self (l : List Nat) (ci : Nat) (h : ∀ i ∈ l, i < ci) :
    l.filter (fun i => decide (i < ci)) = l := by
  induction l with
  | nil => rfl
  | cons a rest ih =>
    simp only [List.filter_cons]
    rw [if_pos (by simpa using h a (by simp))]
    rw [ih (fun i hi => h i (by simp [hi]))]

theorem filter_notmem_nil (l olds : List Nat) (h : ∀ i ∈ l, i ∈ olds) :
    l.filter (fun i => !decide (i ∈ olds)) = [] := by
  induction l with
  | nil => rfl
  | cons a rest ih =>
    simp only [List.filter_cons]
    rw [if_neg (by simpa using h a (by simp))]
    exact ih (fun i hi => h i (by simp [hi]))

theorem keys_filter_pred (fs : List (Nat × Bytes)) (olds : List Nat) :
    (fs.filter (fun p => !decide (p.1 ∈ olds))).map Prod.fst =
      (fs.map Prod.fst).filter (fun i => !decide (i ∈ olds)) := by
  induction fs with
  | nil => rfl
  | cons p rest ih =>
    obtain ⟨j, b⟩ := p
    by_cases hm : j ∈ olds
    · simp only [List.filter_cons, List.map_cons]
      rw [if_neg (by simpa using hm), if_neg (by simpa using hm)]
      exact ih
    · simp only [List.filter_cons, List.map_cons]
      rw [if_pos (by simpa using hm), if_pos (by simpa using hm)]
      simp [ih]

theorem getFile_filter_keys (fs : List (Nat × Bytes)) (olds : List Nat) (i : Nat)
    (h : i ∉ olds) :
    getFile (fs.filter (fun p => !decide (p.1 ∈ olds))) i = getFile fs i :=
  getFile_filter_not_mem fs olds i h

theorem lookupIndex_isSome_of_mem_keys (A : List (Bytes × IndexEntry)) (k : Bytes)
    (h : k ∈ A.map Prod.fst) : ∃ e, lookupIndex A k = some e := by
  cases hl : lookupIndex A k with
  | none => exact absurd h (lookupIndex_none_not_mem A k hl)
  | some e => exact ⟨e, rfl⟩

/-- `compact` under the invariant: it succeeds, rewrites every live pair as
a `Set` in segment `log_index + 1` (each entry repointed there and reading
back its value), makes `log_index + 2` the active segment, keeps exactly the
readers and files for those two segments, resets `uncompacted`, and
preserves the invariant for the same abstract map. -/
theorem Store.compact_inv (s : Store) (m : Bytes → Option Bytes) (h : StoreInv s m) :
    ∃ s', s.compact = some (Except.ok (), s') ∧
      s'.log_index = s.log_index + 1 + 1 ∧
      s'.uncompacted = 0 ∧
      s'.readers = [s.log_index + 1 + 1, s.log_index + 1] ∧
      (∀ i, i ∈ s'.files.map Prod.fst ↔ (i = s.log_index + 1 ∨ i = s.log_index + 1 + 1)) ∧
      s'.index.map Prod.fst = s.index.map Prod.fst ∧
      (∀ p ∈ s'.index, (p : Bytes × IndexEntry).2.log_index = s.log_index + 1 ∧
        Reader.read_value (getFile s'.files (s.log_index + 1)) p.2.offset = m p.1) ∧
      StoreInv s' m := by
  have hcir : s.log_index + 1 ∉ s.readers := fun hc => by
    have := h.readersBounded _ hc; omega
  have hwir : s.log_index + 1 + 1 ∉ s.readers := fun hc => by
    have := h.readersBounded _ hc; omega
  have hcif : s.log_index + 1 ∉ s.files.map Prod.fst :=
    fun hc => hcir ((h.readersEq _).mpr hc)
  have hwif : s.log_index + 1 + 1 ∉ s.files.map Prod.fst :=
    fun hc => hwir ((h.readersEq _).mpr hc)
  have hfiles1 : createFile s.files (s.log_index + 1) = s.files ++ [(s.log_index + 1, [])] :=
    createFile_not_mem _ _ hcif
  have hwif1 : (s.log_index + 1 + 1) ∉ (s.files ++ [(s.log_index + 1, [])]).map Prod.fst := by
    simp only [List.map_append, List.mem_append, List.map_cons, List.map_nil,
      List.mem_cons, List.not_mem_nil]
    push_neg
    exact ⟨hwif, by omega, fun hc => hc⟩
  have hfiles2 : createFile (createFile s.files (s.log_index + 1)) (s.log_index + 1 + 1) =
      (s.files ++ [(s.log_index + 1, [])]) ++ [(s.log_index + 1 + 1, [])] := by
    rw [hfiles1]
    exact createFile_not_mem _ _ hwif1
  have hreaders1 : insertReader s.readers (s.log_index + 1) =
      (s.log_index + 1) :: s.readers := insertReader_not_mem _ _ hcir
  have hreaders2 : insertReader (insertReader s.readers (s.log_index + 1))
      (s.log_index + 1 + 1) = (s.log_index + 1 + 1) :: (s.log_index + 1) :: s.readers := by
    rw [hreaders1]
    apply insertReader_not_mem
    simp only [List.mem_cons]
    push_neg
    exact ⟨by omega, hwir⟩
  have hkeysFS2 : ((s.files ++ [(s.log_index + 1, [])]) ++
      [(s.log_index + 1 + 1, [])]).map Prod.fst =
      s.files.map Prod.fst ++ [s.log_index + 1, s.log_index + 1 + 1] := by
    simp
  have hget2old : ∀ j, j ≠ s.log_index + 1 → j ≠ s.log_index + 1 + 1 →
      getFile ((s.files ++ [(s.log_index + 1, [])]) ++ [(s.log_index + 1 + 1, [])]) j =
        getFile s.files j := by
    intro j hj1 hj2
    by_cases hmem : j ∈ s.files.map Prod.fst
    · rw [getFile_append_left _ _ _ (by simp [hmem])]
      exact getFile_append_left s.files _ j hmem
    · rw [getFile_not_mem s.files j hmem]
      apply getFile_not_mem
      rw [hkeysFS2]
      simp only [List.mem_append, List.mem_cons, List.not_mem_nil]
      push_neg
      exact ⟨hmem, hj1, hj2, not_false⟩
  have hget2ci : getFile ((s.files ++ [(s.log_index + 1, [])]) ++
      [(s.log_index + 1 + 1, [])]) (s.log_index + 1) = [] := by
    rw [getFile_append_left _ _ _ (by simp)]
    rw [getFile_append_right s.files _ _ hcif]
    simp [getFile]
  have hget2wi : getFile ((s.files ++ [(s.log_index + 1, [])]) ++
      [(s.log_index + 1 + 1, [])]) (s.log_index + 1 + 1) = [] := by
    rw [getFile_append_right _ _ _ hwif1]
    simp [getFile]
  -- hypotheses for the loop specification
  have hmemlk : ∀ p ∈ s.index, lookupIndex s.index
      (p : Bytes × IndexEntry).1 = some p.2 := by
    intro p hp
    exact lookup_of_mem_nodup s.index p.1 p.2 h.uniqIndex hp
  have hH1 : ∀ p ∈ s.index, (p : Bytes × IndexEntry).2.log_index ∈
      (s.log_index + 1 + 1) :: (s.log_index + 1) :: s.readers := by
    intro p hp
    obtain ⟨v, hv⟩ := lookup_some_of_m_some s m h p.1 p.2 (hmemlk p hp)
    obtain ⟨e2, hl2, hr2, _⟩ := h.modelsSome p.1 v hv
    rw [hmemlk p hp] at hl2
    simp only [Option.some.injEq] at hl2
    rw [hl2]
    simp [hr2]
  have hH2 : ∀ p ∈ s.index, (p : Bytes × IndexEntry).2.log_index ≠ s.log_index + 1 := by
    intro p hp
    have := h.entriesBounded p.1 p.2 (hmemlk p hp)
    omega
  have hH3 : ∀ p : Bytes × IndexEntry, p ∈ s.index → ∃ v, m p.1 = some v ∧
      Reader.read_value (getFile ((s.files ++ [(s.log_index + 1, [])]) ++
        [(s.log_index + 1 + 1, [])]) p.2.log_index) p.2.offset = some v ∧
      WFStr v ∧ WFStr p.1 := by
    intro p hp
    obtain ⟨v, hv⟩ := lookup_some_of_m_some s m h p.1 p.2 (hmemlk p hp)
    obtain ⟨e2, hl2, hr2, hread2⟩ := h.modelsSome p.1 v hv
    rw [hmemlk p hp] at hl2
    simp only [Option.some.injEq] at hl2
    subst hl2
    have hble := h.entriesBounded p.1 p.2 (hmemlk p hp)
    refine ⟨v, hv, ?_, h.valsWF p.1 v hv, h.keysWF p.1 p.2 (hmemlk p hp)⟩
    rw [hget2old p.2.log_index (by omega) (by omega)]
    exact hread2
  obtain ⟨idx2, fs2, rs2, hloop, hothers, hkeysfs2, hext, hload2, hkeysidx, hmem2, hreplay⟩ :=
    compactLoop_spec (s.log_index + 1) m
      ((s.log_index + 1 + 1) :: (s.log_index + 1) :: s.readers) s.index
      ((s.files ++ [(s.log_index + 1, [])]) ++ [(s.log_index + 1 + 1, [])]) []
      h.uniqIndex (by rw [hkeysFS2]; simp) hH1 hH2 hH3
      (by rw [hget2ci]; exact load_nil 0)
  -- the filters in the success branch
  have holds : ((s.log_index + 1 + 1) :: (s.log_index + 1) :: s.readers).filter
      (fun i => decide (i < s.log_index + 1)) = s.readers := by
    simp only [List.filter_cons]
    rw [if_neg (by simp), if_neg (by simp)]
    exact filter_lt_self s.readers _ (fun i hi => by
      have := h.readersBounded i hi; omega)
  have hrd3 : ((s.log_index + 1 + 1) :: (s.log_index + 1) :: s.readers).filter
      (fun i => !decide (i ∈ s.readers)) = [s.log_index + 1 + 1, s.log_index + 1] := by
    simp only [List.filter_cons]
    rw [if_pos (by simpa using hwir), if_pos (by simpa using hcir)]
    rw [filter_notmem_nil s.readers s.readers (fun i hi => hi)]
  have hcompeq : s.compact = some (Except.ok (),
      { log_index := s.log_index + 1 + 1,
        files := fs2.filter (fun p => !decide (p.1 ∈ s.readers)),
        readers := [s.log_index + 1 + 1, s.log_index + 1],
        index := idx2,
        uncompacted := 0 }) := by
    show (let compaction_index := s.log_index + 1
      let files1 := createFile s.files compaction_index
      let readers1 := insertReader s.readers compaction_index
      let write_index := compaction_index + 1
      let files2 := createFile files1 write_index
      let readers2 := insertReader readers1 write_index
      match compactLoop compaction_index s.index files2 readers2 with
      | none => none
      | some (Except.error e, index1, files3) =>
        some (Except.error e,
          { s with
              log_index := write_index
              files := files3
              readers := readers2
              index := index1 })
      | some (Except.ok _, index1, files3) =>
        let old_log_indices := readers2.filter (fun i => decide (i < compaction_index))
        let files4 := files3.filter (fun p : Nat × Bytes => !decide (p.1 ∈ old_log_indices))
        let readers3 := readers2.filter (fun i => !decide (i ∈ old_log_indices))
        some (Except.ok (),
          { log_index := write_index
            files := files4
            readers := readers3
            index := index1
            uncompacted := 0 })) = _
    simp only []
    rw [hfiles2, hreaders2]
    rw [hloop]
    rw [holds, hrd3]
  have hgetfs4ci : getFile (fs2.filter (fun p => !decide (p.1 ∈ s.readers)))
      (s.log_index + 1) = getFile fs2 (s.log_index + 1) :=
    getFile_filter_keys fs2 s.readers (s.log_index + 1) hcir
  have hgetfs4wi : getFile (fs2.filter (fun p => !decide (p.1 ∈ s.readers)))
      (s.log_index + 1 + 1) = getFile fs2 (s.log_index + 1 + 1) :=
    getFile_filter_keys fs2 s.readers (s.log_index + 1 + 1) hwir
  have hgetfs2wi : getFile fs2 (s.log_index + 1 + 1) = [] := by
    rw [hothers (s.log_index + 1 + 1) (by omega)]
    exact hget2wi
  have hkeys4 : (fs2.filter (fun p => !decide (p.1 ∈ s.readers))).map Prod.fst =
      [s.log_index + 1, s.log_index + 1 + 1] := by
    rw [keys_filter_pred, hkeysfs2, hkeysFS2, List.filter_append]
    rw [filter_notmem_nil (s.files.map Prod.fst) s.readers
      (fun i hi => (h.readersEq i).mpr hi)]
    simp only [List.filter_cons, List.filter_nil]
    rw [if_pos (by simpa using hcir), if_pos (by simpa using hwir)]
    simp
  have hload4 : load (getFile (fs2.filter (fun p => !decide (p.1 ∈ s.readers)))
      (s.log_index + 1)) 0 = some rs2 := by
    rw [hgetfs4ci]
    simpa using hload2
  refine ⟨_, hcompeq, rfl, rfl, rfl, ?_, hkeysidx, ?_, ?_⟩
  · intro i
    show i ∈ (fs2.filter (fun p => !decide (p.1 ∈ s.readers))).map Prod.fst ↔ _
    rw [hkeys4]
    simp
  · intro p hp
    obtain ⟨hpl, hpr⟩ := hmem2 p hp
    refine ⟨hpl, ?_⟩
    show Reader.read_value (getFile (fs2.filter
      (fun p => !decide (p.1 ∈ s.readers))) (s.log_index + 1)) p.2.offset = m p.1
    rw [hgetfs4ci]
    exact hpr
  · refine ⟨?_, ?_, ?_, ?_, ?_, ?_, ?_, ?_, ?_, ?_, ?_⟩
    · show (idx2.map Prod.fst).Nodup
      rw [hkeysidx]
      exact h.uniqIndex
    · show ((fs2.filter (fun p => !decide (p.1 ∈ s.readers))).map Prod.fst).Nodup
      rw [hkeys4]
      simp only [List.nodup_cons, List.mem_singleton, List.nodup_nil]
      exact ⟨by omega, by simp⟩
    · show s.log_index + 1 + 1 ∈ [s.log_index + 1 + 1, s.log_index + 1]
      simp
    · intro i
      show i ∈ [s.log_index + 1 + 1, s.log_index + 1] ↔
        i ∈ (fs2.filter (fun p => !decide (p.1 ∈ s.readers))).map Prod.fst
      rw [hkeys4]
      simp only [List.mem_cons, List.mem_singleton, List.not_mem_nil, or_false]
      constructor
      · rintro (rfl | rfl) <;> simp
      · rintro (rfl | rfl) <;> simp
    · intro i hi
      show i ≤ s.log_index + 1 + 1
      simp only [List.mem_cons, List.mem_singleton, List.not_mem_nil, or_false] at hi
      rcases hi with rfl | rfl <;> omega
    · intro k e hl
      show e.log_index ≤ s.log_index + 1 + 1
      have := (hmem2 (k, e) (mem_of_lookup idx2 k e hl)).1
      simp only at this
      omega
    · intro k hk
      have hnone := h.modelsNone k hk
      exact lookupIndex_not_mem idx2 k (by
        rw [hkeysidx]
        exact lookupIndex_none_not_mem s.index k hnone)
    · intro k v hv
      obtain ⟨e0, hl0, _, _⟩ := h.modelsSome k v hv
      have hmemk : k ∈ idx2.map Prod.fst := by
        rw [hkeysidx]
        exact lookupIndex_mem_keys s.index k e0 hl0
      obtain ⟨e1, hl1⟩ := lookupIndex_isSome_of_mem_keys idx2 k hmemk
      obtain ⟨hpl, hpr⟩ := hmem2 (k, e1) (mem_of_lookup idx2 k e1 hl1)
      simp only at hpl hpr
      refine ⟨e1, hl1, ?_, ?_⟩
      · show e1.log_index ∈ [s.log_index + 1 + 1, s.log_index + 1]
        rw [hpl]
        simp
      · show Reader.read_value (getFile (fs2.filter
          (fun p => !decide (p.1 ∈ s.readers))) e1.log_index) e1.offset = some v
        rw [hpl, hgetfs4ci, ← hv]
        exact hpr
    · exact h.valsWF
    · intro k e hl
      have hmemk : k ∈ s.index.map Prod.fst := by
        rw [← hkeysidx]
        exact lookupIndex_mem_keys idx2 k e hl
      obtain ⟨e0, hl0⟩ := lookupIndex_isSome_of_mem_keys s.index k hmemk
      exact h.keysWF k e0 hl0
    · have hsort : find_log_indices (fs2.filter (fun p => !decide (p.1 ∈ s.readers))) =
          [s.log_index + 1, s.log_index + 1 + 1] := by
        unfold find_log_indices
        rw [hkeys4]
        show List.insertionSort (fun a b => a ≤ b)
          [s.log_index + 1, s.log_index + 1 + 1] = _
        simp only [List.insertionSort, List.orderedInsert]
        rw [if_pos (by omega : s.log_index + 1 ≤ s.log_index + 1 + 1)]
      have hrepl : replaySegment (s.log_index + 1) rs2 ([], 0) = (idx2, 0) := by
        have := hreplay [] 0 (fun kk _ => rfl)
        simpa using this
      refine ⟨(idx2, 0), ?_, fun k => rfl⟩
      rw [hsort]
      simp only [replayAll]
      simp only [hload4, hrepl]
      simp only [replayAll, hgetfs4wi, hgetfs2wi, load_nil]
      simp [replaySegment, replayAll]

/-- Full `set` preservation: append, index update, and (when the threshold
is passed) compaction. -/
theorem Store.set_inv (s : Store) (m : Bytes → Option Bytes) (h : StoreInv s m)
    (key value : Bytes) (hkw : WFStr key) (hvw : WFStr value) :
    ∃ s', s.set key value = some (Except.ok (), s') ∧
      StoreInv s' (mUpdate m key (some value)) := by
  rw [Store.set_eq]
  by_cases hth : (setState s key value).uncompacted > COMPACTION_THRESHOLD
  · rw [if_pos hth]
    obtain ⟨s', hcomp, _, _, _, _, _, _, hinv⟩ :=
      Store.compact_inv (setState s key value) _ (set_pre_inv s m h key value hkw hvw)
    exact ⟨s', hcomp, hinv⟩
  · rw [if_neg hth]
    exact ⟨setState s key value, rfl, set_pre_inv s m h key value hkw hvw⟩

/-- The store produced by opening an empty directory. -/
def store0 : Store :=
  { log_index := 0, files := [(0, [])], readers := [0], index := [], uncompacted := 0 }

theorem open_nil : Store.open [] = Except.ok store0 := rfl

/-- The abstract map of an empty store. -/
def emptyMap : Bytes → Option Bytes := fun _ => none

theorem open_nil_inv : StoreInv store0 emptyMap := by
  refine ⟨?_, ?_, ?_, ?_, ?_, ?_, ?_, ?_, ?_, ?_, ?_⟩
  · simp [store0]
  · simp [store0]
  · simp [store0]
  · intro i
    simp [store0]
  · intro i hi
    simp [store0] at hi
    omega
  · intro k e hl
    exact absurd hl (by simp [store0, lookupIndex])
  · intro k _
    rfl
  · intro k v hv
    exact absurd hv (by simp [emptyMap])
  · intro k v hv
    exact absurd hv (by simp [emptyMap])
  · intro k e hl
    exact absurd hl (by simp [store0, lookupIndex])
  · refine ⟨([], 0), ?_, fun k => rfl⟩
    show replayAll [(0, [])] (find_log_indices [(0, [])]) [] 0 = some ([], 0)
    have hf : find_log_indices [((0 : Nat), ([] : Bytes))] = [0] := rfl
    rw [hf]
    simp only [replayAll]
    have hg : getFile [((0 : Nat), ([] : Bytes))] 0 = [] := rfl
    rw [hg, load_nil]
    rfl

theorem StoreInv_congr (s : Store) (m m' : Bytes → Option Bytes)
    (h : StoreInv s m) (he : ∀ k, m k = m' k) : StoreInv s m' := by
  refine ⟨h.uniqIndex, h.uniqFiles, h.activeReader, h.readersEq, h.readersBounded,
    h.entriesBounded, ?_, ?_, ?_, h.keysWF, h.replayIdx⟩
  · intro k hk
    exact h.modelsNone k (by rw [he k]; exact hk)
  · intro k v hv
    exact h.modelsSome k v (by rw [he k]; exact hv)
  · intro k v hv
    exact h.valsWF k v (by rw [he k]; exact hv)

theorem createFile_mem (fs : List (Nat × Bytes)) (i : Nat)
    (h : i ∈ fs.map Prod.fst) : createFile fs i = fs := by
  unfold createFile
  rw [if_pos h]

/-- Reopening the directory of an invariant-respecting store succeeds and
observes exactly the same `get` results. -/
theorem Store.open_models (s : Store) (m : Bytes → Option Bytes) (h : StoreInv s m) :
    ∃ s2, Store.open s.files = Except.ok s2 ∧
      (∀ k, s2.get k = some (Except.ok (m k))) ∧
      (∀ k, s2.get k = s.get k) := by
  obtain ⟨init, idxA, uA, rs, q, hL, hnot, hinitmem, hA, hld, hseg, hlk, hnod⟩ :=
    replay_decomp s m h
  have hrepall : replayAll s.files (find_log_indices s.files) [] 0 = some q := by
    rw [hL, replayAll_append, hA]
    simp only [Option.some_bind, replayAll]
    rw [hld]
    simp only [replayAll, Option.some.injEq]
    rw [hseg]
  have hlast : (find_log_indices s.files).getLast?.getD 0 = s.log_index := by
    rw [hL, List.getLast?_concat]
    rfl
  have hnonempty : (find_log_indices s.files).isEmpty = false := by
    rw [hL]
    simp
  have hcf : createFile s.files s.log_index = s.files :=
    createFile_mem s.files s.log_index ((h.readersEq s.log_index).mp h.activeReader)
  have hopen : Store.open s.files = Except.ok
      (⟨s.log_index, s.files, find_log_indices s.files, q.1, q.2⟩ : Store) := by
    simp only [Store.open, hrepall, hlast, hnonempty, Bool.false_eq_true, if_false, hcf]
  have hget2 : ∀ k, (⟨s.log_index, s.files, find_log_indices s.files,
      q.1, q.2⟩ : Store).get k = some (Except.ok (m k)) := by
    intro k
    cases hm : m k with
    | none =>
      unfold Store.get
      simp only [hlk k, h.modelsNone k hm]
    | some v =>
      obtain ⟨e, hl2, hr2, hv2⟩ := h.modelsSome k v hm
      unfold Store.get
      simp only [hlk k, hl2]
      have hmemr : e.log_index ∈ find_log_indices s.files :=
        (find_log_indices_perm s.files).mem_iff.mpr ((h.readersEq e.log_index).mp hr2)
      rw [if_pos hmemr]
      simp only [hv2]
  refine ⟨_, hopen, hget2, ?_⟩
  intro k
  rw [hget2 k, Store.get_models s m h k]
/-- A client-level operation on the store. -/
inductive Op where
  | set (key value : Bytes)
  | remove (key : Bytes)
  | get (key : Bytes)
deriving Repr, DecidableEq

/-- Well-formed operation: string arguments within the msgpack limit. -/
def Op.WF : Op → Prop
  | .set k v => WFStr k ∧ WFStr v
  | .remove k => WFStr k
  | .get _ => True

instance (op : Op) : Decidable op.WF := by
  cases op <;> (unfold Op.WF; infer_instance)

/-- Abstract semantics of one operation on the key-value map: `set` binds the
key, `remove` unbinds it, `get` changes nothing.  The fold of this function
computes, for each key, the value of the last `set` not followed by a
`remove` of that key. -/
def applyOp (m : Bytes → Option Bytes) : Op → (Bytes → Option Bytes)
  | .set k v => mUpdate m k (some v)
  | .remove k => mUpdate m k none
  | .get _ => m

/-- The abstract map after a whole operation sequence on a fresh store. -/
def specMap (ops : List Op) : Bytes → Option Bytes :=
  ops.foldl applyOp emptyMap

/-- Run one operation on the store.  A `remove` of an absent key fails with
`KeyNotFound` but leaves the store unchanged and the sequence continues;
`none` models a panic or an engine error aborting the run. -/
def runOp (s : Store) : Op → Option Store
  | .set k v =>
    match s.set k v with
    | some (Except.ok _, s1) => some s1
    | _ => none
  | .remove k =>
    match s.remove k with
    | some (_, s1) => some s1
    | none => none
  | .get k =>
    match s.get k with
    | some _ => some s
    | none => none

/-- Run a sequence of operations. -/
def runOps (s : Store) (ops : List Op) : Option Store :=
  ops.foldl (fun acc op => acc.bind (fun s1 => runOp s1 op)) (some s)

theorem runOps_none (ops : List Op) :
    List.foldl (fun acc op => acc.bind (fun s1 => runOp s1 op)) none ops = none := by
  induction ops with
  | nil => rfl
  | cons o rest ih => simpa using ih

theorem runOps_cons (s : Store) (op : Op) (ops : List Op) :
    runOps s (op :: ops) = (runOp s op).bind (fun s1 => runOps s1 ops) := by
  unfold runOps
  simp only [List.foldl_cons, Option.some_bind]
  cases h1 : runOp s op with
  | none =>
    simp only [Option.none_bind]
    exact runOps_none ops
  | some s1 =>
    simp only [Option.some_bind]

theorem runOp_inv (s : Store) (m : Bytes → Option Bytes) (h : StoreInv s m)
    (op : Op) (hwf : op.WF) :
    ∃ s1, runOp s op = some s1 ∧ StoreInv s1 (applyOp m op) := by
  cases op with
  | set k v =>
    obtain ⟨hkw, hvw⟩ := hwf
    obtain ⟨s1, hset, hinv⟩ := Store.set_inv s m h k v hkw hvw
    refine ⟨s1, ?_, hinv⟩
    simp only [runOp, hset]
  | remove k =>
    cases hl : lookupIndex s.index k with
    | some e =>
      obtain ⟨s1, hrm, _, _, _, _, _, hinv⟩ := Store.remove_inv s m h k e hl
      refine ⟨s1, ?_, hinv⟩
      simp only [runOp, hrm]
    | none =>
      have hrm : s.remove k = some (Except.error Error.KeyNotFound, s) := by
        unfold Store.remove
        rw [if_pos hl]
      refine ⟨s, ?_, ?_⟩
      · simp only [runOp, hrm]
      · have hmk : m k = none := by
          cases hm : m k with
          | none => rfl
          | some v =>
            obtain ⟨e, hl2, _, _⟩ := h.modelsSome k v hm
            rw [hl] at hl2
            exact absurd hl2 (by simp)
        apply StoreInv_congr s m _ h
        intro q2
        simp only [applyOp, mUpdate]
        by_cases hq : q2 = k
        · subst hq
          rw [if_pos rfl, hmk]
        · rw [if_neg hq]
  | get k =>
    refine ⟨s, ?_, h⟩
    simp only [runOp, Store.get_models s m h k]

theorem runOps_inv (ops : List Op) : ∀ (s : Store) (m : Bytes → Option Bytes),
    StoreInv s m → (∀ op ∈ ops, op.WF) →
    ∃ s1, runOps s ops = some s1 ∧ StoreInv s1 (ops.foldl applyOp m) := by
  induction ops with
  | nil =>
    intro s m h _
    exact ⟨s, rfl, h⟩
  | cons op rest ih =>
    intro s m h hwf
    obtain ⟨s1, hop, hinv1⟩ := runOp_inv s m h op (hwf op (by simp))
    obtain ⟨s2, hops, hinv2⟩ := ih s1 (applyOp m op) hinv1 (fun o ho => hwf o (by simp [ho]))
    refine ⟨s2, ?_, hinv2⟩
    rw [runOps_cons, hop]
    simpa using hops

/-- `Request` from `protocol.rs` (keys and values as byte strings). -/
inductive Request where
  | Get (key : Bytes)
  | Set (key value : Bytes)
  | Remove (key : Bytes)
deriving Repr, DecidableEq

/-- `ErrorKind` from `protocol.rs`. -/
inductive ErrorKind where
  | InvalidRequest
  | EngineError
deriving Repr, DecidableEq

/-- `Response` from `protocol.rs`. -/
inductive Response where
  | Ok
  | NotFound
  | Found (value : Bytes)
  | Err (kind : ErrorKind) (message : String)
deriving Repr, DecidableEq

/-- `From<std::io::Error> for Response`: an io error becomes `EngineError`. -/
def Response.fromIoError (msg : String) : Response :=
  Response.Err ErrorKind.EngineError msg

/-- `From<rmp_serde::decode::Error> for Response`: a decode error becomes
`InvalidRequest`. -/
def Response.fromDecodeError (msg : String) : Response :=
  Response.Err ErrorKind.InvalidRequest msg

/-- `TryFrom<Error> for Response` from `protocol.rs`: `Io` maps through the
io conversion (`EngineError`), `Decode` through the decode conversion
(`InvalidRequest`), `KeyNotFound` to `NotFound`; other errors are returned
unconverted (the connection is then dropped with a warning). -/
def Response.tryFrom : Error → Except Error Response
  | Error.Io msg => Except.ok (Response.fromIoError msg)
  | Error.Decode msg => Except.ok (Response.fromDecodeError msg)
  | Error.KeyNotFound => Except.ok Response.NotFound
  | e => Except.error e

/-- `Server::handle_request` from `server.rs`, with the `Store` engine: Get
maps a present value to `Found` and an absent one to `NotFound`; Set and
Remove map success to `Ok`; engine errors propagate. -/
def Server.handle_request (s : Store) (r : Request) :
    Option (Except Error Response × Store) :=
  match r with
  | Request.Get key =>
    (s.get key).map (fun res =>
      match res with
      | Except.ok v => (Except.ok ((v.map Response.Found).getD Response.NotFound), s)
      | Except.error e => (Except.error e, s))
  | Request.Set key value =>
    (s.set key value).map (fun p => (p.1.map (fun _ => Response.Ok), p.2))
  | Request.Remove key =>
    (s.remove key).map (fun p => (p.1.map (fun _ => Response.Ok), p.2))

/-- The response written by `Server::handle_stream` for a successfully
decoded request: a successful dispatch writes the response; a dispatch
error is converted through `Response::try_from` and written when the
conversion succeeds; otherwise nothing is written and the connection fails
(`none` in the first component; the outer `none` is a panic). -/
def Server.handleDecodedRequest (s : Store) (r : Request) :
    Option (Option Response × Store) :=
  (Server.handle_request s r).map (fun p =>
    match p.1 with
    | Except.ok resp => (some resp, p.2)
    | Except.error e =>
      match Response.tryFrom e with
      | Except.ok resp => (some resp, p.2)
      | Except.error _ => (none, p.2))

/-- The store after `set "a" "b"` (bytes `[97] ↦ [98]`) on a fresh store:
one 7-byte `Set` record in segment 0. -/
def store1 : Store :=
  { log_index := 0
    files := [(0, [146, 0, 146, 161, 98, 161, 97])]
    readers := [0]
    index := [([97], IndexEntry.mk 0 3 7)]
    uncompacted := 0 }

/-- `store1` after `remove "a"`: a 5-byte `Remove` record is appended and
the index entry is dropped; `uncompacted` grows by the removed entry's
length (7) only. -/
def store2 : Store :=
  { log_index := 0
    files := [(0, [146, 0, 146, 161, 98, 161, 97, 146, 1, 145, 161, 97])]
    readers := [0]
    index := []
    uncompacted := 7 }

/-- A store whose only index entry points at bytes that do not decode as a
value (as after on-disk corruption): reading it yields a `Decode` error. -/
def storeBad : Store :=
  { log_index := 0
    files := [(0, [255])]
    readers := [0]
    index := [([97], IndexEntry.mk 0 0 1)]
    uncompacted := 0 }

theorem store0_set : store0.set [97] [98] = some (Except.ok (), store1) := rfl

theorem store1_inv : StoreInv store1 (mUpdate emptyMap [97] (some [98])) := by
  obtain ⟨s', hset, hinv⟩ :=
    Store.set_inv store0 emptyMap open_nil_inv [97] [98] (by decide) (by decide)
  have h2 := store0_set.symm.trans hset
  simp only [Option.some.injEq, Prod.mk.injEq] at h2
  rw [← h2.2] at hinv
  exact hinv

/-- The store state after `set`'s append to the active segment fails
mid-write: `Store::set` propagates the error with `?` before touching the
index or `uncompacted`, so only the file carries whatever byte prefix the
failed `Writer::write` managed to append. -/
def setFailedWrite (s : Store) (partialBytes : Bytes) (e : Error) :
    Except Error Unit × Store :=
  (Except.error e,
    { s with
        files := setFile s.files s.log_index
          (getFile s.files s.log_index ++ partialBytes) })

deriving instance DecidableEq for Except

/-- Claim C1: for every finite sequence of set/remove/get operations
performed on a Store opened on a fresh empty directory, and for every key
`k`, `get k` after the sequence returns the value of the last `set k v` in
the sequence not followed by a later `remove k` (computed by `specMap`),
and returns no value if no such set exists. -/
theorem claim_c1 (ops : List Op) (hwf : ∀ op ∈ ops, op.WF) (k : Bytes) :
    Store.open [] = Except.ok store0 ∧
    ∃ s1, runOps store0 ops = some s1 ∧
      s1.get k = some (Except.ok (specMap ops k)) := by
  refine ⟨open_nil, ?_⟩
  obtain ⟨s1, hrun, hinv⟩ := runOps_inv ops store0 emptyMap open_nil_inv hwf
  exact ⟨s1, hrun, Store.get_models s1 _ hinv k⟩

theorem claim_c1_witness :
    (∀ op ∈ ([Op.set [97] [98], Op.remove [97], Op.set [97] [99]] : List Op), op.WF) ∧
    (specMap [Op.set [97] [98], Op.remove [97], Op.set [97] [99]] [97] = some [99]) ∧
    (Store.open [] = Except.ok store0 ∧
     ∃ s1, runOps store0 [Op.set [97] [98], Op.remove [97], Op.set [97] [99]] = some s1 ∧
       s1.get [97] = some (Except.ok
         (specMap [Op.set [97] [98], Op.remove [97], Op.set [97] [99]] [97]))) :=
  ⟨by decide, by decide,
    claim_c1 [Op.set [97] [98], Op.remove [97], Op.set [97] [99]] (by decide) [97]⟩

/-- Claim C2: after a successfully completed sequence of mutations on a
fresh Store, releasing the store and re-opening its directory yields a
store that answers every `get` exactly as the original did: the replayed
index is lookup-equivalent to the one built online. -/
theorem claim_c2 (ops : List Op) (hwf : ∀ op ∈ ops, op.WF) (s1 : Store)
    (hrun : runOps store0 ops = some s1) :
    ∃ s2, Store.open s1.files = Except.ok s2 ∧ ∀ k, s2.get k = s1.get k := by
  obtain ⟨s1x, hrunx, hinv⟩ := runOps_inv ops store0 emptyMap open_nil_inv hwf
  rw [hrun] at hrunx
  simp only [Option.some.injEq] at hrunx
  rw [← hrunx] at hinv
  obtain ⟨s2, hopen, _, hsame⟩ := Store.open_models s1 _ hinv
  exact ⟨s2, hopen, hsame⟩

theorem claim_c2_witness :
    (∀ op ∈ ([Op.set [97] [98]] : List Op), op.WF) ∧
    runOps store0 [Op.set [97] [98]] = some store1 ∧
    ∃ s2, Store.open store1.files = Except.ok s2 ∧ ∀ k, s2.get k = store1.get k :=
  ⟨by decide, by decide, claim_c2 [Op.set [97] [98]] (by decide) store1 (by decide)⟩

/-- Claim C3: `Writer::write` of a `Set` returns a value offset equal to the
record's start offset (the file length at the time of the write) plus 3 and
a length equal to the bytes written, and `read_value` at that offset on the
resulting segment returns exactly the value written. -/
theorem claim_c3 (file value key : Bytes) (hv : WFStr value) :
    (Writer.write file (Command.Set value key)).2.1 = file.length + 3 ∧
    (Writer.write file (Command.Set value key)).2.2 =
      (encodeCommand (Command.Set value key)).length ∧
    (Writer.write file (Command.Set value key)).1 =
      file ++ encodeCommand (Command.Set value key) ∧
    Reader.read_value (Writer.write file (Command.Set value key)).1
      (Writer.write file (Command.Set value key)).2.1 = some value :=
  ⟨rfl, rfl, rfl, read_value_write_set file value key hv⟩

theorem claim_c3_witness :
    WFStr [1, 2] ∧
    ((Writer.write [9] (Command.Set [1, 2] [3])).2.1 = ([9] : Bytes).length + 3 ∧
     (Writer.write [9] (Command.Set [1, 2] [3])).2.2 =
       (encodeCommand (Command.Set [1, 2] [3])).length ∧
     (Writer.write [9] (Command.Set [1, 2] [3])).1 =
       [9] ++ encodeCommand (Command.Set [1, 2] [3]) ∧
     Reader.read_value (Writer.write [9] (Command.Set [1, 2] [3])).1
       (Writer.write [9] (Command.Set [1, 2] [3])).2.1 = some [1, 2]) :=
  ⟨by decide, claim_c3 [9] [1, 2] [3] (by decide)⟩

/-- Claim C4 (code behavior at the failing input): an engine `Decode` error
reaching `Server::handle_stream` is converted by `TryFrom<Error> for
Response` through the request-decoding conversion and is therefore written
as `Response::Err` with kind `InvalidRequest`, not `EngineError` as the
claim states; only the `Io` half of the claim holds.  The final conjunct
drives a `Get` whose indexed bytes are corrupt through the server path. -/
theorem claim_c4 :
    Response.tryFrom (Error.Decode "corrupt record") =
      Except.ok (Response.Err ErrorKind.InvalidRequest "corrupt record") ∧
    ErrorKind.InvalidRequest ≠ ErrorKind.EngineError ∧
    Response.tryFrom (Error.Io "io failure") =
      Except.ok (Response.Err ErrorKind.EngineError "io failure") ∧
    Server.handleDecodedRequest storeBad (Request.Get [97]) =
      some (some (Response.Err ErrorKind.InvalidRequest "invalid value"), storeBad) :=
  ⟨rfl, by decide, rfl, rfl⟩

/-- Claim C5 counterexample: on `store1` (one live key `[97]` whose entry
has length 7), `remove [97]` increases `uncompacted` by 7 — the removed
entry's length only — and not by 7 plus the appended 5-byte `Remove`
record's own length as the claim states. -/
theorem claim_c5_counterexample :
    lookupIndex store1.index [97] = some (IndexEntry.mk 0 3 7) ∧
    store1.remove [97] = some (Except.ok (), store2) ∧
    (encodeCommand (Command.Remove [97])).length = 5 ∧
    store2.uncompacted = store1.uncompacted + 7 ∧
    store2.uncompacted ≠ store1.uncompacted + 7 + 5 := by
  refine ⟨by decide, rfl, by decide, by decide, by decide⟩

/-- Claim C5 (amended): for every key present in the index, `remove`
appends exactly one `Remove` record to the active segment, removes the
key's entry from the index, and increases `uncompacted` by exactly the
removed entry's length (the `Remove` record's own length is not added on
the online path; it is only counted during replay). -/
theorem claim_c5_amended (s : Store) (m : Bytes → Option Bytes) (h : StoreInv s m)
    (k : Bytes) (e : IndexEntry) (hl : lookupIndex s.index k = some e) :
    ∃ s', s.remove k = some (Except.ok (), s') ∧
      s'.files = setFile s.files s.log_index
        (getFile s.files s.log_index ++ encodeCommand (Command.Remove k)) ∧
      s'.index = eraseIndex s.index k ∧
      s'.uncompacted = s.uncompacted + e.length := by
  obtain ⟨s', hrm, _, _, hfiles, hidx, hunc, _⟩ := Store.remove_inv s m h k e hl
  exact ⟨s', hrm, hfiles, hidx, hunc⟩

theorem claim_c5_amended_witness :
    StoreInv store1 (mUpdate emptyMap [97] (some [98])) ∧
    lookupIndex store1.index [97] = some (IndexEntry.mk 0 3 7) ∧
    ∃ s', store1.remove [97] = some (Except.ok (), s') ∧
      s'.files = setFile store1.files store1.log_index
        (getFile store1.files store1.log_index ++ encodeCommand (Command.Remove [97])) ∧
      s'.index = eraseIndex store1.index [97] ∧
      s'.uncompacted = store1.uncompacted + (IndexEntry.mk 0 3 7).length :=
  ⟨store1_inv, by decide,
    claim_c5_amended store1 (mUpdate emptyMap [97] (some [98])) store1_inv [97]
      (IndexEntry.mk 0 3 7) (by decide)⟩

/-- Claim C6 (code behavior at the failing input): when replay applies a
`Set` record of length 8 for a key whose existing index entry has length
10, `open_entry` adds 8 — the NEW record's length — to the uncompacted
counter, not the replaced entry's length 10 as the claim states: the
source's `mem::replace(old_entry, new_entry)` discards the returned old
entry and then reads `old_entry.length` through the overwritten
reference. -/
theorem claim_c6_counterexample :
    open_entry 0 [([1], IndexEntry.mk 0 3 10)] (Command.Set [2] [1], 23, 8) =
      ([([1], IndexEntry.mk 0 23 8)], 8) ∧ (8 : Nat) ≠ 10 := by
  refine ⟨?_, by decide⟩
  rw [open_entry_set_some 0 [([1], IndexEntry.mk 0 3 10)] [2] [1] 23 8
    (IndexEntry.mk 0 3 10) (by decide)]
  decide

/-- Claim C7: compaction on a store with active segment `A = log_index`
writes a `Set` for every live pair into segment `C = A + 1` and repoints
each index entry at `C` (where it reads back exactly the live value),
makes `N = C + 1` the new active segment, deletes every segment file with
index `< C` while the files and readers for `C` and `N` remain, and resets
`uncompacted` to 0. -/
theorem claim_c7 (s : Store) (m : Bytes → Option Bytes) (h : StoreInv s m) :
    ∃ s', s.compact = some (Except.ok (), s') ∧
      s'.log_index = s.log_index + 1 + 1 ∧
      s'.uncompacted = 0 ∧
      s'.readers = [s.log_index + 1 + 1, s.log_index + 1] ∧
      (∀ i, i ∈ s'.files.map Prod.fst ↔ (i = s.log_index + 1 ∨ i = s.log_index + 1 + 1)) ∧
      s'.index.map Prod.fst = s.index.map Prod.fst ∧
      (∀ p ∈ s'.index, (p : Bytes × IndexEntry).2.log_index = s.log_index + 1 ∧
        Reader.read_value (getFile s'.files (s.log_index + 1)) p.2.offset = m p.1) := by
  obtain ⟨s', hc, h1, h2, h3, h4, h5, h6, _⟩ := Store.compact_inv s m h
  exact ⟨s', hc, h1, h2, h3, h4, h5, h6⟩

theorem claim_c7_witness :
    StoreInv store1 (mUpdate emptyMap [97] (some [98])) ∧
    ∃ s', store1.compact = some (Except.ok (), s') ∧
      s'.log_index = store1.log_index + 1 + 1 ∧
      s'.uncompacted = 0 ∧
      s'.readers = [store1.log_index + 1 + 1, store1.log_index + 1] ∧
      (∀ i, i ∈ s'.files.map Prod.fst ↔
        (i = store1.log_index + 1 ∨ i = store1.log_index + 1 + 1)) ∧
      s'.index.map Prod.fst = store1.index.map Prod.fst ∧
      (∀ p ∈ s'.index, (p : Bytes × IndexEntry).2.log_index = store1.log_index + 1 ∧
        Reader.read_value (getFile s'.files (store1.log_index + 1)) p.2.offset =
          mUpdate emptyMap [97] (some [98]) p.1) :=
  ⟨store1_inv, claim_c7 store1 (mUpdate emptyMap [97] (some [98])) store1_inv⟩

/-- Claim C8: for every request the server dispatches successfully — a Get
whose key has a value yields `Found`, a Get on an absent key yields
`NotFound`, a successful Set yields `Ok`, a successful Remove yields `Ok`,
and a Remove of an absent key (engine `KeyNotFound`) yields `NotFound`. -/
theorem claim_c8 (s : Store) (m : Bytes → Option Bytes) (h : StoreInv s m) :
    (∀ k v, m k = some v →
      Server.handleDecodedRequest s (Request.Get k) =
        some (some (Response.Found v), s)) ∧
    (∀ k, m k = none →
      Server.handleDecodedRequest s (Request.Get k) =
        some (some Response.NotFound, s)) ∧
    (∀ k v, WFStr k → WFStr v → ∃ s',
      Server.handleDecodedRequest s (Request.Set k v) =
        some (some Response.Ok, s')) ∧
    (∀ k e, lookupIndex s.index k = some e → ∃ s',
      Server.handleDecodedRequest s (Request.Remove k) =
        some (some Response.Ok, s')) ∧
    (∀ k, lookupIndex s.index k = none →
      Server.handleDecodedRequest s (Request.Remove k) =
        some (some Response.NotFound, s)) := by
  refine ⟨?_, ?_, ?_, ?_, ?_⟩
  · intro k v hv
    simp only [Server.handleDecodedRequest, Server.handle_request]
    rw [Store.get_models s m h k, hv]
    rfl
  · intro k hv
    simp only [Server.handleDecodedRequest, Server.handle_request]
    rw [Store.get_models s m h k, hv]
    rfl
  · intro k v hkw hvw
    obtain ⟨s', hset, _⟩ := Store.set_inv s m h k v hkw hvw
    refine ⟨s', ?_⟩
    simp only [Server.handleDecodedRequest, Server.handle_request]
    rw [hset]
    rfl
  · intro k e hl
    obtain ⟨s', hrm, _, _, _, _, _, _⟩ := Store.remove_inv s m h k e hl
    refine ⟨s', ?_⟩
    simp only [Server.handleDecodedRequest, Server.handle_request]
    rw [hrm]
    rfl
  · intro k hl
    have hrm : s.remove k = some (Except.error Error.KeyNotFound, s) := by
      unfold Store.remove
      rw [if_pos hl]
    simp only [Server.handleDecodedRequest, Server.handle_request]
    rw [hrm]
    rfl

theorem claim_c8_witness :
    StoreInv store1 (mUpdate emptyMap [97] (some [98])) ∧
    ((∀ k v, mUpdate emptyMap [97] (some [98]) k = some v →
      Server.handleDecodedRequest store1 (Request.Get k) =
        some (some (Response.Found v), store1)) ∧
    (∀ k, mUpdate emptyMap [97] (some [98]) k = none →
      Server.handleDecodedRequest store1 (Request.Get k) =
        some (some Response.NotFound, store1)) ∧
    (∀ k v, WFStr k → WFStr v → ∃ s',
      Server.handleDecodedRequest store1 (Request.Set k v) =
        some (some Response.Ok, s')) ∧
    (∀ k e, lookupIndex store1.index k = some e → ∃ s',
      Server.handleDecodedRequest store1 (Request.Remove k) =
        some (some Response.Ok, s')) ∧
    (∀ k, lookupIndex store1.index k = none →
      Server.handleDecodedRequest store1 (Request.Remove k) =
        some (some Response.NotFound, store1))) :=
  ⟨store1_inv, claim_c8 store1 (mUpdate emptyMap [97] (some [98])) store1_inv⟩

/-- Claim C9: `remove` on a key absent from the index fails with
`KeyNotFound` and returns before anything is written: the resulting store
is literally the input store, so the segment files, the index, the
uncompacted counter, all subsequent `get` results and the next replay are
unchanged. -/
theorem claim_c9 (s : Store) (key : Bytes)
    (h : lookupIndex s.index key = none) :
    s.remove key = some (Except.error Error.KeyNotFound, s) := by
  unfold Store.remove
  rw [if_pos h]

theorem claim_c9_witness :
    lookupIndex store0.index [97] = none ∧
    store0.remove [97] = some (Except.error Error.KeyNotFound, store0) :=
  ⟨by decide, claim_c9 store0 [97] (by decide)⟩

/-- Claim C10: if the append of the `Set` record fails, `set` propagates
the error and leaves the in-memory index and the uncompacted counter
unchanged (the source returns via `?` before updating them), and every
subsequent `get` on the same store returns the same result as before the
failed call, whatever partial bytes the failed write left at the end of
the active segment. -/
theorem claim_c10 (s : Store) (m : Bytes → Option Bytes) (h : StoreInv s m)
    (junk : Bytes) (e : Error) :
    (setFailedWrite s junk e).1 = Except.error e ∧
    (setFailedWrite s junk e).2.index = s.index ∧
    (setFailedWrite s junk e).2.uncompacted = s.uncompacted ∧
    (∀ k, (setFailedWrite s junk e).2.get k = s.get k) := by
  refine ⟨rfl, rfl, rfl, ?_⟩
  intro k
  rw [Store.get_models s m h k]
  cases hm : m k with
  | none =>
    unfold Store.get
    simp only [setFailedWrite, h.modelsNone k hm]
  | some v =>
    obtain ⟨e2, hl2, hr2, hv2⟩ := h.modelsSome k v hm
    unfold Store.get
    simp only [setFailedWrite, hl2]
    rw [if_pos hr2]
    rw [getFile_set]
    by_cases hli : s.log_index = e2.log_index
    · rw [if_pos hli]
      rw [← hli] at hv2
      rw [read_value_append _ junk _ v hv2]
    · rw [if_neg hli]
      rw [hv2]

theorem claim_c10_witness :
    StoreInv store1 (mUpdate emptyMap [97] (some [98])) ∧
    ((setFailedWrite store1 [1, 2, 3] (Error.Io "disk full")).1 =
      Except.error (Error.Io "disk full") ∧
    (setFailedWrite store1 [1, 2, 3] (Error.Io "disk full")).2.index = store1.index ∧
    (setFailedWrite store1 [1, 2, 3] (Error.Io "disk full")).2.uncompacted =
      store1.uncompacted ∧
    (∀ k, (setFailedWrite store1 [1, 2, 3] (Error.Io "disk full")).2.get k =
      store1.get k)) :=
  ⟨store1_inv, claim_c10 store1 (mUpdate emptyMap [97] (some [98])) store1_inv
    [1, 2, 3] (Error.Io "disk full")⟩

end KvsProof
